import Mathlib

/-!
go-negentropy: the sorted, sealable `Vector` store (`vector.go`)

A shallow embedding of `vector.go` and a development of its lifecycle,
ordering, search and fingerprint properties.

Conventions of the embedding

* Go `int` arguments (`begin`, `end`) are `Int`; `uint64` values and slice
  lengths are `Nat`.  The arithmetic of `vector.go` (`i++`, `begin + i`,
  `end - begin`, and `i + j` inside `sort.Search`) is only reached with
  operands between `begin` and a slice length, so it cannot wrap.
* A method with a pointer receiver returns the new `Vector` next to its Go
  return value.  An `error` is `Option Error` (`none` is `nil`).
* A Go run-time panic (index or slice bound out of range) is the outcome
  `Outcome.panic`.
* The visitor of `Iterate` is a Go closure; its captured variables are an
  explicit state `σ` that every call may read and replace.
-/

namespace Negentropy

/-! ## Records -/

/-- Modelled from the spec: the Record type `Item` is declared outside
`vector.go`.  A Record has a `timestamp` (64-bit unsigned integer) and an `id`
(fixed-width byte sequence of length `IDSize`); bytes are naturals. -/
structure Item where
  Timestamp : Nat
  ID : List Nat
deriving DecidableEq

/-- Modelled from the spec: the unsigned byte-lexicographic comparison of two
identifiers (`true` when the first argument precedes the second). -/
def bytesLess : List Nat → List Nat → Bool
  | [], [] => false
  | [], _ :: _ => true
  | _ :: _, [] => false
  | a :: as, b :: bs => if a < b then true else if b < a then false else bytesLess as bs

/-- Modelled from the spec: `Item.LessThan` is declared outside `vector.go`.
Total order of Records: primary key `timestamp` ascending, secondary key `id`
ascending as an unsigned byte-lexicographic comparison. -/
def Item.LessThan (a b : Item) : Bool :=
  if a.Timestamp ≠ b.Timestamp then decide (a.Timestamp < b.Timestamp)
  else bytesLess a.ID b.ID

/-- Modelled from the spec: `Item.Equals` is declared outside `vector.go`.
Equality of Records: both fields equal. -/
def Item.Equals (a b : Item) : Bool :=
  decide (a.Timestamp = b.Timestamp) && decide (a.ID = b.ID)

/-- Modelled from the spec: `NewItemWithID` is declared outside `vector.go`; it
builds a new Record from the inputs.  It is only called with
`len(id) == IDSize`. -/
def NewItemWithID (createdAt : Nat) (id : List Nat) : Item :=
  { Timestamp := createdAt, ID := id }

/-- Modelled from the spec: the Boundary Key `Bound` is declared outside
`vector.go`; it has the shape of a Record and is used only as a comparison
operand. -/
structure Bound where
  Item : Negentropy.Item
deriving DecidableEq

/-- The Go zero value `Item{}`: timestamp `0` and `IDSize` zero bytes. -/
def Item.zero (IDSize : Nat) : Item :=
  { Timestamp := 0, ID := List.replicate IDSize 0 }

/-- A Record as the Go type admits it: a 64-bit timestamp and exactly `IDSize`
bytes. -/
def Item.WellFormed (IDSize : Nat) (it : Item) : Prop :=
  it.Timestamp < 2 ^ 64 ∧ it.ID.length = IDSize ∧ ∀ b ∈ it.ID, b < 256

/-! ## Errors and outcomes -/

/-- The six `errors.New` values of `vector.go`, in order of appearance:
"already sealed", "bad id size for added item", "duplicate item inserted",
"not sealed", "index out of bounds", "bad range". -/
inductive Error where
  | alreadySealed
  | badIdSize
  | duplicateItem
  | notSealed
  | indexOutOfBounds
  | badRange
deriving DecidableEq

/-- What a call does: it returns a value, or the Go run time panics. -/
inductive Outcome (α : Type) where
  | ret (a : α)
  | panic
deriving DecidableEq

/-! ## The Go library functions used by `vector.go` -/

/-- One insertion step of `sortSlice`: `x` is placed before the first element
that is not less than it. -/
def orderedInsert {α : Type} (less : α → α → Bool) (x : α) : List α → List α
  | [] => [x]
  | y :: ys => if less y x then y :: orderedInsert less x ys else x :: y :: ys

/-- Go `sort.Slice(items, less)`: the library call reorders the slice so that
it is sorted by `less` (no stability promised).  Embedded as insertion sort;
`sortSlice_unique` shows that for the Record order every sorted rearrangement
of the input is this very list, so the library's choice of algorithm cannot be
observed. -/
def sortSlice {α : Type} (less : α → α → Bool) : List α → List α
  | [] => []
  | x :: xs => orderedInsert less x (sortSlice less xs)

/-- The loop of Go `sort.Search`:
`for i < j { h := int(uint(i+j) >> 1); if !f(h) { i = h + 1 } else { j = h } }`.
The predicate may panic (`none`), which aborts the search. -/
def searchLoop (f : Nat → Option Bool) (i j : Nat) : Option Nat :=
  if i < j then
    match f ((i + j) / 2) with
    | none => none
    | some b => if !b then searchLoop f ((i + j) / 2 + 1) j else searchLoop f i ((i + j) / 2)
  else some i
termination_by j - i
decreasing_by
  all_goals simp_wf
  all_goals omega

/-- Go `sort.Search(n, f)`: `i, j := 0, n`, then the loop, then `return i`. -/
def Search (n : Nat) (f : Nat → Option Bool) : Option Nat :=
  searchLoop f 0 n

/-! ## `Vector` -/

/-- The struct `Vector`: the stored slice and the `sealed` flag. -/
structure Vector where
  items : List Item
  sealed : Bool
deriving DecidableEq

/-- `NewVector()`. -/
def NewVector : Vector :=
  { items := [], sealed := false }

/-- `v.Insert(createdAt, id)`; `IDSize` is the package constant declared
outside `vector.go`. -/
def Vector.Insert (IDSize : Nat) (v : Vector) (createdAt : Nat) (id : List Nat) :
    Vector × Option Error :=
  if v.sealed then (v, some Error.alreadySealed)
  else if id.length ≠ IDSize then (v, some Error.badIdSize)
  else ({ v with items := v.items ++ [NewItemWithID createdAt id] }, none)

/-- `v.InsertItem(item)`. -/
def Vector.InsertItem (IDSize : Nat) (v : Vector) (item : Item) : Vector × Option Error :=
  v.Insert IDSize item.Timestamp item.ID

/-- The duplicate scan of `Seal`:
`for i := 1; i < len(v.items); i++ { if v.items[i-1].Equals(v.items[i]) { return err } }`. -/
def sealScan : List Item → Option Error
  | a :: b :: rest => if a.Equals b then some Error.duplicateItem else sealScan (b :: rest)
  | _ => none

/-- `v.Seal()`: the flag is set first, then the slice is sorted, then the
adjacent pairs are scanned. -/
def Vector.Seal (v : Vector) : Vector × Option Error :=
  if v.sealed then (v, some Error.alreadySealed)
  else
    let v1 : Vector := { v with sealed := true }
    let v2 : Vector := { v1 with items := sortSlice Item.LessThan v1.items }
    (v2, sealScan v2.items)

/-- `v.Unseal()`. -/
def Vector.Unseal (v : Vector) : Vector :=
  { v with sealed := false }

/-- `v.checkSealed()`. -/
def Vector.checkSealed (v : Vector) : Option Error :=
  if !v.sealed then some Error.notSealed else none

/-- `v.checkBounds(begin, end)`. -/
def Vector.checkBounds (v : Vector) (begin_ end_ : Int) : Option Error :=
  if begin_ > end_ ∨ end_ > (v.items.length : Int) then some Error.badRange else none

/-- `v.Size()`. -/
def Vector.Size (v : Vector) : Int :=
  match v.checkSealed with
  | some _ => 0
  | none => (v.items.length : Int)

/-- `v.GetItem(i)` with `i` a `uint64`. -/
def Vector.GetItem (IDSize : Nat) (v : Vector) (i : Nat) : Item × Option Error :=
  match v.checkSealed with
  | some e => (Item.zero IDSize, some e)
  | none =>
    match v.items[i]? with
    | none => (Item.zero IDSize, some Error.indexOutOfBounds)
    | some it => (it, none)

/-- The index expression `items[i]` with `i` a Go `int`: `none` is the
run-time panic for an index outside `0 <= i < len(items)`. -/
def itemAt (items : List Item) (i : Int) : Option Item :=
  if i < 0 then none else items[i.toNat]?

/-- The loop of `Iterate`:
`for i := begin; i < end; i++ { if !cb(v.items[i], i) { break } }`. -/
def iterateLoop {σ : Type} (items : List Item) (cb : σ → Item → Int → Bool × σ)
    (end_ : Int) (i : Int) (s : σ) : Outcome σ :=
  if i < end_ then
    match itemAt items i with
    | none => Outcome.panic
    | some it =>
      match cb s it i with
      | (true, s1) => iterateLoop items cb end_ (i + 1) s1
      | (false, s1) => Outcome.ret s1
  else Outcome.ret s
termination_by (end_ - i).toNat
decreasing_by
  all_goals simp_wf
  all_goals omega

/-- `v.Iterate(begin, end, cb)`: the visitor's final state and the returned
error. -/
def Vector.Iterate {σ : Type} (v : Vector) (begin_ end_ : Int)
    (cb : σ → Item → Int → Bool × σ) (s : σ) : Outcome (σ × Option Error) :=
  match v.checkSealed with
  | some e => Outcome.ret (s, some e)
  | none =>
    match v.checkBounds begin_ end_ with
    | some e => Outcome.ret (s, some e)
    | none =>
      match iterateLoop v.items cb end_ begin_ s with
      | Outcome.panic => Outcome.panic
      | Outcome.ret s1 => Outcome.ret (s1, none)

/-- The slice expression `items[begin:end]`, of which `FindLowerBound` takes
the length: `none` is the run-time panic for bounds outside
`0 <= begin <= end <= cap(items)`.  The capacity is at least the length and
is otherwise unknown; `FindLowerBound` reaches the expression only with
`end <= len(items)`. -/
def sliceLen (items : List Item) (begin_ end_ : Int) : Option Nat :=
  if begin_ < 0 ∨ begin_ > end_ ∨ end_ > (items.length : Int) then none
  else some (end_ - begin_).toNat

/-- `v.FindLowerBound(begin, end, bound)`. -/
def Vector.FindLowerBound (v : Vector) (begin_ end_ : Int) (bound : Bound) :
    Outcome (Int × Option Error) :=
  match v.checkSealed with
  | some e => Outcome.ret (0, some e)
  | none =>
    match v.checkBounds begin_ end_ with
    | some e => Outcome.ret (0, some e)
    | none =>
      match sliceLen v.items begin_ end_ with
      | none => Outcome.panic
      | some n =>
        match Search n (fun i =>
            (itemAt v.items (begin_ + (i : Int))).map (fun it => !it.LessThan bound.Item)) with
        | none => Outcome.panic
        | some i => Outcome.ret (begin_ + (i : Int), none)

/-- The `Accumulator` and `Fingerprint` types are declared outside
`vector.go`; `Fingerprint` uses them only through these operations, which are
taken as parameters: the Go zero values `Accumulator{}` and `Fingerprint{}`,
and the methods `SetToZero`, `AddItem` and `GetFingerprint`. -/
structure AccumulatorOps (Acc FP : Type) where
  zeroValue : Acc
  SetToZero : Acc → Acc
  AddItem : Acc → Item → Acc
  GetFingerprint : Acc → Int → FP
  zeroFingerprint : FP

/-- `v.Fingerprint(begin, end)`. -/
def Vector.Fingerprint {Acc FP : Type} (ops : AccumulatorOps Acc FP) (v : Vector)
    (begin_ end_ : Int) : Outcome (FP × Option Error) :=
  match v.Iterate begin_ end_ (fun out item _ => (true, ops.AddItem out item))
      (ops.SetToZero ops.zeroValue) with
  | Outcome.panic => Outcome.panic
  | Outcome.ret (_, some e) => Outcome.ret (ops.zeroFingerprint, some e)
  | Outcome.ret (out, none) => Outcome.ret (ops.GetFingerprint out (end_ - begin_), none)

/-! ## Call sequences -/

/-- A call of one of the four state-changing methods. -/
inductive Call where
  | Insert (createdAt : Nat) (id : List Nat)
  | InsertItem (item : Item)
  | Seal
  | Unseal

/-- The `Vector` after one call, whatever the call returned. -/
def Vector.step (IDSize : Nat) (v : Vector) : Call → Vector
  | Call.Insert createdAt id => (v.Insert IDSize createdAt id).1
  | Call.InsertItem item => (v.InsertItem IDSize item).1
  | Call.Seal => v.Seal.1
  | Call.Unseal => v.Unseal

/-- The `Vector` after a sequence of calls, first call first. -/
def Vector.run (IDSize : Nat) (v : Vector) (calls : List Call) : Vector :=
  calls.foldl (Vector.step IDSize) v

/-- States reachable from `NewVector()` by calls of `Insert`, `InsertItem`,
`Seal` and `Unseal`. -/
def Reachable (IDSize : Nat) (v : Vector) : Prop :=
  ∃ calls : List Call, Vector.run IDSize NewVector calls = v

/-- The order "not greater than" induced by `LessThan`. -/
def Item.le (a b : Item) : Prop :=
  b.LessThan a = false

/-- A small accumulator used to run `Fingerprint` on concrete inputs: the
state is a number, `AddItem` adds the timestamp and the id bytes, and the
fingerprint pairs the state with the count. -/
def sumOps : AccumulatorOps Nat (Nat × Int) where
  zeroValue := 7
  SetToZero := fun _ => 0
  AddItem := fun acc it => acc + it.Timestamp + it.ID.sum
  GetFingerprint := fun acc n => (acc, n)
  zeroFingerprint := (0, 0)

/-- A visitor that records every call it receives and always continues. -/
def logAll (s : List (Item × Int)) (it : Item) (i : Int) : Bool × List (Item × Int) :=
  (true, s ++ [(it, i)])

/-! ## Predicates on the stored sequence, and sample data -/

/-- The stored sequence is strictly ascending: every adjacent pair
`items[i]`, `items[i+1]` satisfies `items[i].LessThan(items[i+1])`. -/
def StrictlyAscending (l : List Item) : Prop :=
  ∀ (i : Nat) (h : i + 1 < l.length),
    (l.get ⟨i, Nat.lt_of_succ_lt h⟩).LessThan (l.get ⟨i + 1, h⟩) = true

/-- No two elements at distinct positions are `Equals`. -/
def NoEqualPair (l : List Item) : Prop :=
  ∀ (i j : Nat) (hi : i < l.length) (hj : j < l.length), i ≠ j →
    (l.get ⟨i, hi⟩).Equals (l.get ⟨j, hj⟩) = false

/-- Two distinct positions hold `Equals` records. -/
def HasEqualPair (l : List Item) : Prop :=
  ∃ (i j : Nat) (hi : i < l.length) (hj : j < l.length), i ≠ j ∧
    (l.get ⟨i, hi⟩).Equals (l.get ⟨j, hj⟩) = true

/-- Three records in the insertion order of the spec's example, with
two-byte ids. -/
def sampleItems : List Item :=
  [⟨100, [1, 0]⟩, ⟨50, [2, 0]⟩, ⟨50, [1, 0]⟩]

/-- Index `i` splits the range `[begin, end)` at the bound: `begin <= i <= end`,
every item at an index in `[begin, i)` is `LessThan` the bound's item, and
every item at an index in `[i, end)` is not. -/
def IsLowerBound (items : List Item) (begin_ end_ : Int) (bound : Bound) (i : Int) : Prop :=
  begin_ ≤ i ∧ i ≤ end_ ∧
  (∀ k : Int, begin_ ≤ k → k < i →
    ∃ it, itemAt items k = some it ∧ it.LessThan bound.Item = true) ∧
  (∀ k : Int, i ≤ k → k < end_ →
    ∃ it, itemAt items k = some it ∧ it.LessThan bound.Item = false)

/-- Index `i` is the smallest index of `[begin, end)` whose item is not
`LessThan` the bound's item, or `end` when the range has no such index. -/
def IsLeastNotLess (items : List Item) (begin_ end_ : Int) (bound : Bound) (i : Int) : Prop :=
  begin_ ≤ i ∧ i ≤ end_ ∧
  (i < end_ → ∃ it, itemAt items i = some it ∧ it.LessThan bound.Item = false) ∧
  (∀ k : Int, begin_ ≤ k → k < end_ →
    (∃ it, itemAt items k = some it ∧ it.LessThan bound.Item = false) → i ≤ k)

/-- The calls that insert the three sample records (two-byte ids) and seal. -/
def sampleCalls : List Call :=
  [Call.Insert 100 [1, 0], Call.Insert 50 [2, 0], Call.Insert 50 [1, 0], Call.Seal]

/-- The records of the sub-slice `items[begin:end]`, in order. -/
def rangeItems (items : List Item) (begin_ end_ : Int) : List Item :=
  (items.drop begin_.toNat).take (end_ - begin_).toNat

/-- A fresh Vector into which the records of `l` were inserted in order with
`InsertItem`. -/
def insertAll (IDSize : Nat) (l : List Item) : Vector :=
  Vector.run IDSize NewVector (l.map Call.InsertItem)

/-- A Vector holding the record `(7, [1, 2])` twice, open. -/
def duplicateVector : Vector :=
  { items := [⟨7, [1, 2]⟩, ⟨3, [0, 0]⟩, ⟨7, [1, 2]⟩], sealed := false }

/-- A call fails with the error `e`: it returns, without panic, that error. -/
def Outcome.failsWith {α : Type} (o : Outcome (α × Option Error)) (e : Error) : Prop :=
  ∃ a, o = Outcome.ret (a, some e)

/-- The number of records of `l` that are `LessThan` the record `x`: the rank
of `x` among the records of `l`. -/
def rank (l : List Item) (x : Item) : Nat :=
  l.countP (fun y => y.LessThan x)

/-- Five records with two-byte ids, not in order. -/
def sampleFive : List Item :=
  [⟨30, [0, 1]⟩, ⟨10, [9, 9]⟩, ⟨30, [0, 0]⟩, ⟨40, [5, 5]⟩, ⟨20, [7, 7]⟩]

/-- The records of a sub-slice paired with their indices, the first one having
index `i`. -/
def indexFrom (i : Int) : List Item → List (Item × Int)
  | [] => []
  | it :: rest => (it, i) :: indexFrom (i + 1) rest

/-- The pairs `(items[i], i)` for `i = begin, ..., end - 1`. -/
def rangePairs (items : List Item) (begin_ end_ : Int) : List (Item × Int) :=
  indexFrom begin_ (rangeItems items begin_ end_)

/-- The traversal as the spec words it: the visitor is invoked on each pair in
ascending order, and the traversal stops after the first call that answers
"stop".  The result is the visitor's final state. -/
def visitAll {σ : Type} (cb : σ → Item → Int → Bool × σ) : List (Item × Int) → σ → σ
  | [], s => s
  | (it, i) :: rest, s =>
    match cb s it i with
    | (true, s1) => visitAll cb rest s1
    | (false, s1) => s1

/-- The calls the traversal of the spec makes, each with the visitor's answer:
a call on every pair in order, none after the first answer "stop". -/
def callsOf {σ : Type} (cb : σ → Item → Int → Bool × σ) :
    List (Item × Int) → σ → List (Item × Int × Bool)
  | [], _ => []
  | (it, i) :: rest, s =>
    match cb s it i with
    | (true, s1) => (it, i, true) :: callsOf cb rest s1
    | (false, _) => [(it, i, false)]

/-- The visitor `cb` instrumented: it behaves as `cb` and appends every call
it receives, with its answer, to a log. -/
def recordCalls {σ : Type} (cb : σ → Item → Int → Bool × σ)
    (st : σ × List (Item × Int × Bool)) (it : Item) (i : Int) :
    Bool × (σ × List (Item × Int × Bool)) :=
  ((cb st.1 it i).1, ((cb st.1 it i).2, st.2 ++ [(it, i, (cb st.1 it i).1)]))

/-- A visitor that records every call and answers "stop" at index `stop`. -/
def logUntil (stop : Int) (s : List (Item × Int)) (it : Item) (i : Int) :
    Bool × List (Item × Int) :=
  (decide (i ≠ stop), s ++ [(it, i)])

/-! ## Theorems -/

/-! ### The Record order -/

theorem bytesLess_irrefl (a : List Nat) : bytesLess a a = false := by
  induction a with
  | nil => rfl
  | cons x xs ih => simp [bytesLess, ih]

theorem bytesLess_trans : ∀ (a b c : List Nat),
    bytesLess a b = true → bytesLess b c = true → bytesLess a c = true
  | [], [], _, h, _ => by simp [bytesLess] at h
  | [], _ :: _, [], _, h => by simp [bytesLess] at h
  | [], _ :: _, _ :: _, _, _ => by simp [bytesLess]
  | _ :: _, [], _, h, _ => by simp [bytesLess] at h
  | _ :: _, _ :: _, [], _, h => by simp [bytesLess] at h
  | x :: xs, y :: ys, z :: zs, h1, h2 => by
    simp only [bytesLess] at h1 h2 ⊢
    split_ifs at h1 h2 ⊢ <;> first
      | rfl
      | omega
      | exact bytesLess_trans xs ys zs h1 h2

theorem bytesLess_connex : ∀ (a b : List Nat),
    bytesLess a b = false → bytesLess b a = false → a = b
  | [], [], _, _ => rfl
  | [], _ :: _, h, _ => by simp [bytesLess] at h
  | _ :: _, [], _, h => by simp [bytesLess] at h
  | x :: xs, y :: ys, h1, h2 => by
    simp only [bytesLess] at h1 h2
    split_ifs at h1 h2
    have hxy : x = y := by omega
    rw [hxy, bytesLess_connex xs ys h1 h2]

theorem Item.lessThan_irrefl (a : Item) : a.LessThan a = false := by
  simp [Item.LessThan, bytesLess_irrefl]

theorem Item.lessThan_trans (a b c : Item)
    (h1 : a.LessThan b = true) (h2 : b.LessThan c = true) : a.LessThan c = true := by
  obtain ⟨ta, ia⟩ := a
  obtain ⟨tb, ib⟩ := b
  obtain ⟨tc, ic⟩ := c
  simp only [Item.LessThan] at h1 h2 ⊢
  by_cases hab : ta = tb
  · by_cases hbc : tb = tc
    · subst hab hbc
      simp only [ne_eq, not_true_eq_false, if_false] at h1 h2 ⊢
      exact bytesLess_trans _ _ _ h1 h2
    · subst hab
      simp only [ne_eq, not_true_eq_false, if_false, hbc, not_false_eq_true, if_true] at h1 h2 ⊢
      exact h2
  · by_cases hbc : tb = tc
    · subst hbc
      simp only [ne_eq, hab, not_false_eq_true, if_true] at h1 ⊢
      exact h1
    · simp only [ne_eq, hab, hbc, not_false_eq_true, if_true, decide_eq_true_eq] at h1 h2
      have hac : ta ≠ tc := by omega
      simp only [ne_eq, hac, not_false_eq_true, if_true, decide_eq_true_eq]
      omega

theorem Item.lessThan_connex (a b : Item)
    (h1 : a.LessThan b = false) (h2 : b.LessThan a = false) : a = b := by
  obtain ⟨ta, ia⟩ := a
  obtain ⟨tb, ib⟩ := b
  simp only [Item.LessThan] at h1 h2
  split_ifs at h1 h2 with hab hba hba
  · simp at h1 h2; omega
  · simp at hba; omega
  · simp at hab hba; omega
  · simp at hab
    rw [hab, bytesLess_connex ia ib h1 h2]

theorem Item.lessThan_asymm (a b : Item) (h : a.LessThan b = true) : b.LessThan a = false := by
  cases hba : b.LessThan a
  · rfl
  · have := Item.lessThan_trans a b a h hba
    rw [Item.lessThan_irrefl] at this
    exact absurd this (by decide)

theorem Item.equals_iff (a b : Item) : a.Equals b = true ↔ a = b := by
  obtain ⟨ta, ia⟩ := a
  obtain ⟨tb, ib⟩ := b
  simp [Item.Equals]

theorem Item.le_total (a b : Item) : Item.le a b ∨ Item.le b a := by
  unfold Item.le
  cases h : b.LessThan a
  · exact Or.inl rfl
  · exact Or.inr (Item.lessThan_asymm b a h)

theorem Item.le_trans (a b c : Item) (h1 : Item.le a b) (h2 : Item.le b c) : Item.le a c := by
  unfold Item.le at *
  cases hca : c.LessThan a
  · rfl
  · -- c < a, not (b < a), so a <= b; then c < b?  via connex
    cases hab : a.LessThan b
    · have := Item.lessThan_connex a b hab h1
      subst this
      rw [hca] at h2; exact absurd h2 (by decide)
    · have := Item.lessThan_trans c a b hca hab
      rw [this] at h2; exact absurd h2 (by decide)

theorem Item.le_antisymm (a b : Item) (h1 : Item.le a b) (h2 : Item.le b a) : a = b :=
  Item.lessThan_connex a b h2 h1

theorem orderedInsert_perm {α : Type} (less : α → α → Bool) (x : α) (l : List α) :
    (orderedInsert less x l).Perm (x :: l) := by
  induction l with
  | nil => exact List.Perm.refl _
  | cons y ys ih =>
    simp only [orderedInsert]
    split_ifs
    · exact (List.Perm.cons y ih).trans (List.Perm.swap x y ys)
    · exact List.Perm.refl _

theorem sortSlice_perm {α : Type} (less : α → α → Bool) (l : List α) :
    (sortSlice less l).Perm l := by
  induction l with
  | nil => exact List.Perm.refl _
  | cons x xs ih =>
    exact (orderedInsert_perm less x (sortSlice less xs)).trans (List.Perm.cons x ih)

theorem orderedInsert_sorted (x : Item) (l : List Item) (h : l.Pairwise Item.le) :
    (orderedInsert Item.LessThan x l).Pairwise Item.le := by
  induction l with
  | nil => simp [orderedInsert]
  | cons y ys ih =>
    obtain ⟨hy, hys⟩ := List.pairwise_cons.mp h
    simp only [orderedInsert]
    split_ifs with hlt
    · refine List.pairwise_cons.mpr ⟨?_, ih hys⟩
      intro b hb
      rcases List.mem_cons.mp ((orderedInsert_perm Item.LessThan x ys).mem_iff.mp hb) with hbx | hbys
      · rw [hbx]; exact Item.lessThan_asymm y x hlt
      · exact hy b hbys
    · have hxy : Item.le x y := by simpa [Item.le] using hlt
      refine List.pairwise_cons.mpr ⟨?_, h⟩
      intro b hb
      rcases List.mem_cons.mp hb with hby | hbys
      · rw [hby]; exact hxy
      · exact Item.le_trans x y b hxy (hy b hbys)

theorem sortSlice_sorted (l : List Item) : (sortSlice Item.LessThan l).Pairwise Item.le := by
  induction l with
  | nil => exact List.Pairwise.nil
  | cons x xs ih => exact orderedInsert_sorted x _ ih

/-- The Record order admits one sorted arrangement of any given records: a
sorted rearrangement of `l` is the list `sort.Slice` is embedded as. -/
theorem sortSlice_unique (l l1 : List Item) (hp : l1.Perm l) (hs : l1.Pairwise Item.le) :
    l1 = sortSlice Item.LessThan l :=
  @List.eq_of_perm_of_sorted Item Item.le ⟨Item.le_antisymm⟩ l1 (sortSlice Item.LessThan l)
    (hp.trans (sortSlice_perm Item.LessThan l).symm) hs (sortSlice_sorted l)

theorem sortSlice_of_sorted (l : List Item) (hs : l.Pairwise Item.le) :
    sortSlice Item.LessThan l = l :=
  (sortSlice_unique l l (List.Perm.refl l) hs).symm

theorem sortSlice_congr_perm (l1 l2 : List Item) (hp : l1.Perm l2) :
    sortSlice Item.LessThan l1 = sortSlice Item.LessThan l2 :=
  sortSlice_unique l2 (sortSlice Item.LessThan l1) ((sortSlice_perm _ l1).trans hp)
    (sortSlice_sorted l1)

theorem sealScan_eq (l : List Item) :
    sealScan l = none ∨ sealScan l = some Error.duplicateItem := by
  induction l with
  | nil => exact Or.inl rfl
  | cons a t ih =>
    cases t with
    | nil => exact Or.inl rfl
    | cons b rest =>
      simp only [sealScan]
      split_ifs
      · exact Or.inr rfl
      · exact ih

/-- On a sorted slice the scan passes exactly when the slice is strictly
ascending. -/
theorem sealScan_none_iff (l : List Item) (hs : l.Pairwise Item.le) :
    sealScan l = none ↔ l.Pairwise (fun a b => a.LessThan b = true) := by
  induction l with
  | nil => simp [sealScan]
  | cons a t ih =>
    obtain ⟨ha, ht⟩ := List.pairwise_cons.mp hs
    cases t with
    | nil => simp [sealScan]
    | cons b rest =>
      have hab : Item.le a b := ha b (List.mem_cons_self b rest)
      simp only [sealScan]
      by_cases heq : a.Equals b = true
      · have hab2 : a = b := (Item.equals_iff a b).mp heq
        simp only [heq, if_true]
        constructor
        · intro h; cases h
        · intro h
          have := (List.pairwise_cons.mp h).1 b (List.mem_cons_self b rest)
          rw [hab2, Item.lessThan_irrefl] at this
          cases this
      · simp only [heq]
        rw [if_neg (by simp), ih ht]
        have hne : a ≠ b := fun h => heq ((Item.equals_iff a b).mpr h)
        have hlt : a.LessThan b = true := by
          cases h : a.LessThan b
          · exact absurd (Item.lessThan_connex a b h hab) hne
          · rfl
        constructor
        · intro h
          refine List.pairwise_cons.mpr ⟨?_, h⟩
          intro c hc
          rcases List.mem_cons.mp hc with hcb | hcr
          · rw [hcb]; exact hlt
          · exact Item.lessThan_trans a b c hlt ((List.pairwise_cons.mp h).1 c hcr)
        · intro h
          exact (List.pairwise_cons.mp h).2

theorem strict_pairwise_nodup (l : List Item)
    (h : l.Pairwise (fun a b => a.LessThan b = true)) : l.Nodup := by
  refine List.Pairwise.imp ?_ h
  intro a b hab heq
  rw [heq, Item.lessThan_irrefl] at hab
  cases hab

theorem sorted_nodup_strict (l : List Item) (hs : l.Pairwise Item.le) (hn : l.Nodup) :
    l.Pairwise (fun a b => a.LessThan b = true) := by
  refine List.Pairwise.imp₂ ?_ hs hn
  intro a b hle hne
  cases h : a.LessThan b
  · exact absurd (Item.lessThan_connex a b h hle) hne
  · rfl

/-! ### Sealing -/

theorem hasEqualPair_iff (l : List Item) : HasEqualPair l ↔ ¬ l.Nodup := by
  rw [List.nodup_iff_injective_get]
  constructor
  · rintro ⟨i, j, hi, hj, hne, heq⟩ hinj
    have := hinj ((Item.equals_iff _ _).mp heq)
    exact hne (Fin.mk.inj this)
  · intro h
    simp only [Function.Injective, not_forall] at h
    obtain ⟨⟨i, hi⟩, ⟨j, hj⟩, heq, hne⟩ := h
    exact ⟨i, j, hi, hj, fun hij => hne (Fin.ext hij), (Item.equals_iff _ _).mpr heq⟩

theorem noEqualPair_iff (l : List Item) : NoEqualPair l ↔ l.Nodup := by
  rw [← not_not (a := l.Nodup), ← hasEqualPair_iff]
  constructor
  · rintro h ⟨i, j, hi, hj, hne, heq⟩
    rw [h i j hi hj hne] at heq
    cases heq
  · intro h i j hi hj hne
    cases heq : (l.get ⟨i, hi⟩).Equals (l.get ⟨j, hj⟩)
    · rfl
    · exact absurd ⟨i, j, hi, hj, hne, heq⟩ h

theorem strictlyAscending_of_pairwise (l : List Item)
    (h : l.Pairwise (fun a b => a.LessThan b = true)) : StrictlyAscending l := by
  intro i hi
  exact List.pairwise_iff_get.mp h ⟨i, Nat.lt_of_succ_lt hi⟩ ⟨i + 1, hi⟩ (by simp)

theorem Vector.seal_of_open (v : Vector) (hopen : v.sealed = false) :
    v.Seal = ({ items := sortSlice Item.LessThan v.items, sealed := true },
      sealScan (sortSlice Item.LessThan v.items)) := by
  simp [Vector.Seal, hopen]

theorem Vector.seal_of_sealed (v : Vector) (h : v.sealed = true) :
    v.Seal = (v, some Error.alreadySealed) := by
  simp [Vector.Seal, h]

/-- C1: whenever `Seal()` returns no error, the stored sequence afterwards is
strictly ascending under the Record order (each adjacent pair satisfies
`LessThan`) and no two elements at distinct positions are `Equals`.  Nothing
is assumed about the ids; a `Seal()` that returns no error was called on an
open Vector. -/
theorem seal_success_strictly_ascending (v : Vector) (hok : v.Seal.2 = none) :
    v.sealed = false ∧ StrictlyAscending v.Seal.1.items ∧ NoEqualPair v.Seal.1.items := by
  cases hs : v.sealed with
  | true =>
    rw [Vector.seal_of_sealed v hs] at hok
    cases hok
  | false =>
    rw [Vector.seal_of_open v hs] at hok ⊢
    have hstrict := (sealScan_none_iff _ (sortSlice_sorted v.items)).mp hok
    exact ⟨rfl, strictlyAscending_of_pairwise _ hstrict,
      (noEqualPair_iff _).mpr (strict_pairwise_nodup _ hstrict)⟩

theorem seal_success_strictly_ascending_witness :
    (Vector.Seal ⟨sampleItems, false⟩).2 = none ∧
    ((⟨sampleItems, false⟩ : Vector).sealed = false ∧
      StrictlyAscending (Vector.Seal ⟨sampleItems, false⟩).1.items ∧
      NoEqualPair (Vector.Seal ⟨sampleItems, false⟩).1.items) :=
  ⟨by decide, seal_success_strictly_ascending ⟨sampleItems, false⟩ (by decide)⟩

/-- On an open Vector `Seal()` returns no error exactly when the sequence has
no repeated record. -/
theorem Vector.seal_none_iff_nodup (v : Vector) (hopen : v.sealed = false) :
    v.Seal.2 = none ↔ v.items.Nodup := by
  rw [Vector.seal_of_open v hopen]
  simp only
  rw [sealScan_none_iff _ (sortSlice_sorted v.items)]
  constructor
  · intro h
    exact (sortSlice_perm _ v.items).nodup_iff.mp (strict_pairwise_nodup _ h)
  · intro h
    exact sorted_nodup_strict _ (sortSlice_sorted v.items)
      ((sortSlice_perm _ v.items).nodup_iff.mpr h)

/-- C4: on an open Vector `Seal()` fails with the duplicate-item error if and
only if two distinct positions of the inserted sequence hold `Equals` records,
wherever the two copies stand; otherwise it returns no error, in particular on
an empty sequence. -/
theorem seal_duplicate_iff (v : Vector) (hopen : v.sealed = false) :
    (v.Seal.2 = some Error.duplicateItem ↔ HasEqualPair v.items) ∧
    (v.Seal.2 = none ↔ ¬ HasEqualPair v.items) ∧
    (v.items = [] → v.Seal.2 = none) := by
  have hnone : v.Seal.2 = none ↔ ¬ HasEqualPair v.items := by
    rw [hasEqualPair_iff, not_not]
    exact Vector.seal_none_iff_nodup v hopen
  refine ⟨?_, hnone, ?_⟩
  · constructor
    · intro h
      by_contra hno
      rw [hnone.mpr hno] at h
      cases h
    · intro h
      have hcases : v.Seal.2 = none ∨ v.Seal.2 = some Error.duplicateItem := by
        rw [Vector.seal_of_open v hopen]
        exact sealScan_eq _
      rcases hcases with h1 | h1
      · exact absurd h (hnone.mp h1)
      · exact h1
  · intro hnil
    rw [Vector.seal_of_open v hopen, hnil]
    rfl

theorem seal_duplicate_iff_witness :
    (⟨[⟨7, [1, 2]⟩, ⟨3, [0, 0]⟩, ⟨7, [1, 2]⟩], false⟩ : Vector).sealed = false ∧
    (((Vector.Seal ⟨[⟨7, [1, 2]⟩, ⟨3, [0, 0]⟩, ⟨7, [1, 2]⟩], false⟩).2 = some Error.duplicateItem ↔
        HasEqualPair [⟨7, [1, 2]⟩, ⟨3, [0, 0]⟩, ⟨7, [1, 2]⟩]) ∧
      ((Vector.Seal ⟨[⟨7, [1, 2]⟩, ⟨3, [0, 0]⟩, ⟨7, [1, 2]⟩], false⟩).2 = none ↔
        ¬ HasEqualPair [⟨7, [1, 2]⟩, ⟨3, [0, 0]⟩, ⟨7, [1, 2]⟩]) ∧
      (([⟨7, [1, 2]⟩, ⟨3, [0, 0]⟩, ⟨7, [1, 2]⟩] : List Item) = [] →
        (Vector.Seal ⟨[⟨7, [1, 2]⟩, ⟨3, [0, 0]⟩, ⟨7, [1, 2]⟩], false⟩).2 = none)) :=
  ⟨rfl, seal_duplicate_iff ⟨[⟨7, [1, 2]⟩, ⟨3, [0, 0]⟩, ⟨7, [1, 2]⟩], false⟩ rfl⟩

/-! ### Binary search -/

/-- The loop of `sort.Search` on a predicate that is defined below `n` and,
once true, stays true: it ends and returns the first index at which the
predicate holds. -/
theorem searchLoop_spec (f : Nat → Option Bool) (p : Nat → Bool) (n : Nat)
    (hf : ∀ k, k < n → f k = some (p k))
    (hmono : ∀ k k1, k ≤ k1 → k1 < n → p k = true → p k1 = true) :
    ∀ (d i j : Nat), j - i ≤ d → i ≤ j → j ≤ n →
      (∀ k, k < i → p k = false) → (∀ k, j ≤ k → k < n → p k = true) →
      ∃ r, searchLoop f i j = some r ∧ i ≤ r ∧ r ≤ j ∧
        (∀ k, k < r → p k = false) ∧ (∀ k, r ≤ k → k < n → p k = true) := by
  intro d
  induction d with
  | zero =>
    intro i j hd hij hjn hlo hhi
    have heq : i = j := by omega
    subst heq
    refine ⟨i, ?_, le_refl i, le_refl i, hlo, hhi⟩
    rw [searchLoop]
    simp
  | succ d ih =>
    intro i j hd hij hjn hlo hhi
    by_cases hlt : i < j
    · have hh1 : i ≤ (i + j) / 2 := by omega
      have hh2 : (i + j) / 2 < j := by omega
      rw [searchLoop, if_pos hlt, hf _ (by omega)]
      cases hp : p ((i + j) / 2) with
      | false =>
        have hlo2 : ∀ k, k < (i + j) / 2 + 1 → p k = false := by
          intro k hk
          cases hpk : p k with
          | false => rfl
          | true =>
            have := hmono k ((i + j) / 2) (by omega) (by omega) hpk
            rw [hp] at this
            cases this
        obtain ⟨r, hr, h1, h2, h3, h4⟩ :=
          ih ((i + j) / 2 + 1) j (by omega) (by omega) hjn hlo2 hhi
        exact ⟨r, by simpa using hr, by omega, h2, h3, h4⟩
      | true =>
        have hhi2 : ∀ k, (i + j) / 2 ≤ k → k < n → p k = true :=
          fun k hk hkn => hmono _ k hk hkn hp
        obtain ⟨r, hr, h1, h2, h3, h4⟩ :=
          ih i ((i + j) / 2) (by omega) hh1 (by omega) hlo hhi2
        exact ⟨r, by simpa using hr, h1, by omega, h3, h4⟩
    · have heq : i = j := by omega
      subst heq
      refine ⟨i, ?_, le_refl i, le_refl i, hlo, hhi⟩
      rw [searchLoop]
      simp

theorem itemAt_ofNat (items : List Item) (k : Nat) :
    itemAt items (k : Int) = items[k]? := by
  simp [itemAt]

theorem itemAt_of_lt (items : List Item) (k : Int) (h0 : 0 ≤ k) (h1 : k < items.length) :
    ∃ it, itemAt items k = some it := by
  obtain ⟨m, rfl⟩ := Int.eq_ofNat_of_zero_le h0
  have hm : m < items.length := by exact_mod_cast h1
  exact ⟨items[m], by rw [itemAt_ofNat]; exact List.getElem?_eq_getElem hm⟩

/-- In a sorted slice the item at a smaller index is not greater. -/
theorem itemAt_le_of_sorted (items : List Item) (hs : items.Pairwise Item.le) (k k1 : Int)
    (a b : Item) (hk : k ≤ k1) (ha : itemAt items k = some a) (hb : itemAt items k1 = some b) :
    Item.le a b := by
  have h0 : 0 ≤ k := by
    by_contra hneg
    simp [itemAt, not_le.mp hneg] at ha
  obtain ⟨m, rfl⟩ := Int.eq_ofNat_of_zero_le h0
  obtain ⟨m1, rfl⟩ := Int.eq_ofNat_of_zero_le (le_trans h0 hk)
  rw [itemAt_ofNat] at ha hb
  have hmm : m ≤ m1 := by exact_mod_cast hk
  obtain ⟨hm, rfl⟩ := List.getElem?_eq_some_iff.mp ha
  obtain ⟨hm1, rfl⟩ := List.getElem?_eq_some_iff.mp hb
  rcases Nat.lt_or_eq_of_le hmm with hlt | heq
  · exact List.pairwise_iff_getElem.mp hs m m1 hm hm1 hlt
  · subst heq
    exact Item.lessThan_irrefl _

theorem Item.lessThan_of_le_of_lessThan (a b c : Item) (hab : Item.le a b)
    (hbc : b.LessThan c = true) : a.LessThan c = true := by
  cases h : a.LessThan b with
  | true => exact Item.lessThan_trans a b c h hbc
  | false =>
    have heq := Item.lessThan_connex a b h hab
    rw [heq]
    exact hbc

/-! ### Reachable states -/

theorem Vector.step_sorted (IDSize : Nat) (v : Vector) (c : Call)
    (h : v.sealed = true → v.items.Pairwise Item.le) :
    (v.step IDSize c).sealed = true → (v.step IDSize c).items.Pairwise Item.le := by
  cases hs : v.sealed with
  | true =>
    cases c with
    | Insert createdAt id => simpa [Vector.step, Vector.Insert, hs] using h hs
    | InsertItem item => simpa [Vector.step, Vector.InsertItem, Vector.Insert, hs] using h hs
    | Seal => simpa [Vector.step, Vector.Seal, hs] using h hs
    | Unseal => simp [Vector.step, Vector.Unseal]
  | false =>
    cases c with
    | Insert createdAt id =>
      simp only [Vector.step, Vector.Insert, hs]
      split_ifs <;> simp [hs]
    | InsertItem item =>
      simp only [Vector.step, Vector.InsertItem, Vector.Insert, hs]
      split_ifs <;> simp [hs]
    | Seal =>
      intro _
      rw [Vector.step, Vector.seal_of_open v hs]
      exact sortSlice_sorted v.items
    | Unseal => simp [Vector.step, Vector.Unseal]

theorem Vector.run_sorted (IDSize : Nat) (calls : List Call) :
    ∀ v : Vector, (v.sealed = true → v.items.Pairwise Item.le) →
      (v.run IDSize calls).sealed = true → (v.run IDSize calls).items.Pairwise Item.le := by
  induction calls with
  | nil => intro v h; exact h
  | cons c cs ih =>
    intro v h
    exact ih (v.step IDSize c) (Vector.step_sorted IDSize v c h)

/-- In every reachable state with the flag set the stored sequence is sorted
(not necessarily strictly). -/
theorem reachable_sealed_sorted (IDSize : Nat) (v : Vector) (hr : Reachable IDSize v)
    (hs : v.sealed = true) : v.items.Pairwise Item.le := by
  obtain ⟨calls, rfl⟩ := hr
  exact Vector.run_sorted IDSize calls NewVector (by simp [NewVector]) hs

/-! ### Lower bound -/

theorem isLowerBound_unique (items : List Item) (begin_ end_ : Int) (bound : Bound)
    (i j : Int) (hi : IsLowerBound items begin_ end_ bound i)
    (hj : IsLowerBound items begin_ end_ bound j) : i = j := by
  obtain ⟨hi1, hi2, hi3, hi4⟩ := hi
  obtain ⟨hj1, hj2, hj3, hj4⟩ := hj
  rcases lt_trichotomy i j with hlt | heq | hgt
  · obtain ⟨a, ha, ha2⟩ := hi4 i (le_refl i) (lt_of_lt_of_le hlt hj2)
    obtain ⟨b, hb, hb2⟩ := hj3 i hi1 hlt
    rw [ha] at hb
    cases hb
    rw [ha2] at hb2
    cases hb2
  · exact heq
  · obtain ⟨a, ha, ha2⟩ := hj4 j (le_refl j) (lt_of_lt_of_le hgt hi2)
    obtain ⟨b, hb, hb2⟩ := hi3 j hj1 hgt
    rw [ha] at hb
    cases hb
    rw [ha2] at hb2
    cases hb2

theorem isLeastNotLess_of_isLowerBound (items : List Item) (begin_ end_ : Int) (bound : Bound)
    (i : Int) (hi : IsLowerBound items begin_ end_ bound i) :
    IsLeastNotLess items begin_ end_ bound i := by
  obtain ⟨hi1, hi2, hi3, hi4⟩ := hi
  refine ⟨hi1, hi2, fun h => hi4 i (le_refl i) h, ?_⟩
  intro k hk1 _ hex
  by_contra hlt
  obtain ⟨a, ha, ha2⟩ := hex
  obtain ⟨b, hb, hb2⟩ := hi3 k hk1 (not_le.mp hlt)
  rw [ha] at hb
  cases hb
  rw [ha2] at hb2
  cases hb2

/-- `FindLowerBound` on a sorted slice, flag set, range within the slice. -/
theorem findLowerBound_of_sorted (v : Vector) (hs : v.sealed = true)
    (hsorted : v.items.Pairwise Item.le) (begin_ end_ : Int) (h0 : 0 ≤ begin_)
    (h1 : begin_ ≤ end_) (h2 : end_ ≤ (v.items.length : Int)) (bound : Bound) :
    ∃ r : Int, v.FindLowerBound begin_ end_ bound = Outcome.ret (r, none) ∧
      IsLowerBound v.items begin_ end_ bound r := by
  obtain ⟨b, rfl⟩ := Int.eq_ofNat_of_zero_le h0
  obtain ⟨e, rfl⟩ := Int.eq_ofNat_of_zero_le (le_trans h0 h1)
  have hbe : b ≤ e := by exact_mod_cast h1
  have hel : e ≤ v.items.length := by exact_mod_cast h2
  have hin : ∀ k, k < e - b → b + k < v.items.length := fun k hk => by omega
  have hspec := searchLoop_spec
    (fun i => (itemAt v.items ((b : Int) + (i : Int))).map (fun it => !it.LessThan bound.Item))
    (fun k => match v.items[b + k]? with
      | some it => !it.LessThan bound.Item
      | none => false)
    (e - b)
    (by
      intro k hk
      have : ((b : Int) + (k : Int)) = ((b + k : Nat) : Int) := by push_cast; rfl
      simp only [this, itemAt_ofNat, List.getElem?_eq_getElem (hin k hk), Option.map_some'])
    (by
      intro k k1 hk hk1
      simp only [List.getElem?_eq_getElem (hin k (by omega)),
        List.getElem?_eq_getElem (hin k1 hk1)]
      intro hp
      have hle : Item.le v.items[b + k] v.items[b + k1] := by
        rcases Nat.lt_or_eq_of_le hk with hlt | heq
        · exact List.pairwise_iff_getElem.mp hsorted (b + k) (b + k1) _ _ (by omega)
        · subst heq
          exact Item.lessThan_irrefl _
      cases hlt : v.items[b + k1].LessThan bound.Item with
      | false => rfl
      | true =>
        have := Item.lessThan_of_le_of_lessThan _ _ _ hle hlt
        simp [this] at hp)
    (e - b) 0 (e - b) (by omega) (by omega) (le_refl _)
    (by intro k hk; omega)
    (by intro k hk hk2; omega)
  obtain ⟨r, hr, _, hre, hlo, hhi⟩ := hspec
  refine ⟨(b : Int) + (r : Int), ?_, ?_, ?_, ?_, ?_⟩
  · have hsl : sliceLen v.items (b : Int) (e : Int) = some (e - b) := by
      simp only [sliceLen]
      rw [if_neg (by omega)]
      congr 1
      omega
    simp only [Vector.FindLowerBound, Vector.checkSealed, Vector.checkBounds, hs, hsl, Search]
    rw [if_neg (by simp), if_neg (by omega)]
    simp only [hr]
  · omega
  · omega
  · intro k hk1 hk2
    obtain ⟨m, rfl⟩ := Int.eq_ofNat_of_zero_le (le_trans h0 hk1)
    have hm : m - b < r := by omega
    have hmb : b + (m - b) = m := by omega
    have hml : m < v.items.length := by omega
    have := hlo (m - b) hm
    simp only [hmb, List.getElem?_eq_getElem hml] at this
    exact ⟨v.items[m], by rw [itemAt_ofNat]; exact List.getElem?_eq_getElem hml,
      by simpa using this⟩
  · intro k hk1 hk2
    obtain ⟨m, rfl⟩ := Int.eq_ofNat_of_zero_le (by omega : (0 : Int) ≤ k)
    have hm : r ≤ m - b := by omega
    have hmb : b + (m - b) = m := by omega
    have hml : m < v.items.length := by omega
    have := hhi (m - b) hm (by omega)
    simp only [hmb, List.getElem?_eq_getElem hml] at this
    exact ⟨v.items[m], by rw [itemAt_ofNat]; exact List.getElem?_eq_getElem hml,
      by simpa using this⟩

/-- C5: on a sealed Vector (a state reached from `NewVector()` with the flag
set) and a range `0 <= begin <= end <= len(items)`, `FindLowerBound` returns
without error (and without panic) an index `i` that splits the range at the
bound: `begin <= i <= end`, every item in `[begin, i)` is `LessThan` the
bound's item and every item in `[i, end)` is not.  No other index splits the
range so, and `i` is the smallest index of the range whose item is not less
than the bound, or `end` if there is none. -/
theorem findLowerBound_spec (IDSize : Nat) (v : Vector) (hr : Reachable IDSize v)
    (hs : v.sealed = true) (begin_ end_ : Int) (h0 : 0 ≤ begin_) (h1 : begin_ ≤ end_)
    (h2 : end_ ≤ (v.items.length : Int)) (bound : Bound) :
    ∃ i : Int, v.FindLowerBound begin_ end_ bound = Outcome.ret (i, none) ∧
      IsLowerBound v.items begin_ end_ bound i ∧
      (∀ j : Int, IsLowerBound v.items begin_ end_ bound j → j = i) ∧
      IsLeastNotLess v.items begin_ end_ bound i := by
  obtain ⟨i, hret, hlb⟩ := findLowerBound_of_sorted v hs
    (reachable_sealed_sorted IDSize v hr hs) begin_ end_ h0 h1 h2 bound
  exact ⟨i, hret, hlb, fun j hj => isLowerBound_unique _ _ _ _ j i hj hlb,
    isLeastNotLess_of_isLowerBound _ _ _ _ i hlb⟩

theorem findLowerBound_spec_witness :
    ∃ i : Int, (Vector.run 2 NewVector sampleCalls).FindLowerBound 0 3 ⟨⟨50, [2, 0]⟩⟩ =
        Outcome.ret (i, none) ∧
      IsLowerBound (Vector.run 2 NewVector sampleCalls).items 0 3 ⟨⟨50, [2, 0]⟩⟩ i ∧
      (∀ j : Int, IsLowerBound (Vector.run 2 NewVector sampleCalls).items 0 3 ⟨⟨50, [2, 0]⟩⟩ j →
        j = i) ∧
      IsLeastNotLess (Vector.run 2 NewVector sampleCalls).items 0 3 ⟨⟨50, [2, 0]⟩⟩ i :=
  findLowerBound_spec 2 (Vector.run 2 NewVector sampleCalls) ⟨sampleCalls, rfl⟩ (by decide)
    0 3 (by decide) (by decide) (by decide) ⟨⟨50, [2, 0]⟩⟩

/-! ### The flag after a failed `Seal` -/

/-- C2: `Seal()` on an open Vector that holds the record `(7, [1, 2])` twice
returns the duplicate-item error and leaves the sequence sorted, but the
`sealed` flag is set: the Vector does not stay open. -/
theorem seal_duplicate_leaves_flag_set :
    duplicateVector.sealed = false ∧
    duplicateVector.Seal.2 = some Error.duplicateItem ∧
    duplicateVector.Seal.1.items = [⟨3, [0, 0]⟩, ⟨7, [1, 2]⟩, ⟨7, [1, 2]⟩] ∧
    duplicateVector.Seal.1.sealed = true := by
  decide

/-- C3: the state reached from `NewVector()` by inserting the record
`(7, [1, 2])` twice and calling `Seal()` (which returns the duplicate-item
error) has the `sealed` flag set while its sequence holds two `Equals` records
and is not strictly ascending. -/
theorem sealed_state_with_duplicates_reachable :
    Reachable 2 ⟨[⟨7, [1, 2]⟩, ⟨7, [1, 2]⟩], true⟩ ∧
    (Vector.run 2 NewVector [Call.Insert 7 [1, 2], Call.Insert 7 [1, 2]]).Seal.2 =
      some Error.duplicateItem ∧
    HasEqualPair [⟨7, [1, 2]⟩, ⟨7, [1, 2]⟩] ∧
    ¬ NoEqualPair [⟨7, [1, 2]⟩, ⟨7, [1, 2]⟩] ∧
    ¬ StrictlyAscending [⟨7, [1, 2]⟩, ⟨7, [1, 2]⟩] := by
  refine ⟨⟨[Call.Insert 7 [1, 2], Call.Insert 7 [1, 2], Call.Seal], by decide⟩, by decide,
    ⟨0, 1, by decide, by decide, by decide, by decide⟩, ?_, ?_⟩
  · intro h
    have := h 0 1 (by decide) (by decide) (by decide)
    revert this
    decide
  · intro h
    have := h 0 (by decide)
    revert this
    decide

/-! ### `Insert` -/

theorem Vector.seal_sets_flag (v : Vector) : v.Seal.1.sealed = true := by
  cases hs : v.sealed with
  | true => rw [Vector.seal_of_sealed v hs]; exact hs
  | false => rw [Vector.seal_of_open v hs]

/-- C8: `Insert(createdAt, id)` returns the already-sealed error on a sealed
Vector; otherwise the bad-id-size error when `len(id) != IDSize`; otherwise no
error, and the new sequence is the old one with the one Record
`(createdAt, id)` appended, the flag still false.  Whenever it returns an error
the Vector is unchanged, and after a `Seal()` (whatever that returned) it
fails with the already-sealed error. -/
theorem insert_spec (IDSize : Nat) (v : Vector) (createdAt : Nat) (id : List Nat) :
    (v.sealed = true → v.Insert IDSize createdAt id = (v, some Error.alreadySealed)) ∧
    (v.sealed = false → id.length ≠ IDSize →
      v.Insert IDSize createdAt id = (v, some Error.badIdSize)) ∧
    (v.sealed = false → id.length = IDSize →
      v.Insert IDSize createdAt id =
        ({ items := v.items ++ [{ Timestamp := createdAt, ID := id }], sealed := false },
          none)) ∧
    (∀ e, (v.Insert IDSize createdAt id).2 = some e → (v.Insert IDSize createdAt id).1 = v) ∧
    v.Seal.1.Insert IDSize createdAt id = (v.Seal.1, some Error.alreadySealed) := by
  refine ⟨?_, ?_, ?_, ?_, ?_⟩
  · intro hs
    simp [Vector.Insert, hs]
  · intro hs hlen
    simp [Vector.Insert, hs, hlen]
  · intro hs hlen
    simp [Vector.Insert, hs, hlen, NewItemWithID]
  · intro e
    simp only [Vector.Insert]
    split_ifs <;> simp
  · simp [Vector.Insert, Vector.seal_sets_flag v]

/-- C9 as stated fails: on the sealed Vector obtained by sealing a fresh one,
`Insert` with a one-byte id (`IDSize` being 2) returns the already-sealed
error, not the bad-id-size error. -/
theorem insert_bad_id_on_sealed_is_already_sealed :
    NewVector.Seal.1.sealed = true ∧ [1].length ≠ 2 ∧
    (NewVector.Seal.1.Insert 2 5 [1]).2 = some Error.alreadySealed ∧
    (NewVector.Seal.1.Insert 2 5 [1]).2 ≠ some Error.badIdSize := by
  decide

/-- C9, amended: for every id with `len(id) != IDSize`, `Insert` fails and
leaves the Vector unchanged: with the bad-id-size error when the Vector is
open, with the already-sealed error when it is sealed. -/
theorem insert_bad_id_fails (IDSize : Nat) (v : Vector) (createdAt : Nat) (id : List Nat)
    (hlen : id.length ≠ IDSize) :
    v.Insert IDSize createdAt id =
      (v, some (if v.sealed then Error.alreadySealed else Error.badIdSize)) := by
  cases hs : v.sealed <;> simp [Vector.Insert, hs, hlen]

theorem insert_bad_id_fails_witness :
    NewVector.Insert 2 5 [1] =
      (NewVector, some (if NewVector.sealed then Error.alreadySealed else Error.badIdSize)) :=
  insert_bad_id_fails 2 NewVector 5 [1] (by decide)

/-! ### Negative `begin` -/

/-- C10: on the sealed Vector obtained by sealing a fresh one, `checkBounds`
accepts the range `(-1, 0)`; `Iterate(-1, 0, cb)`, `FindLowerBound(-1, 0, b)`
and `Fingerprint(-1, 0)` then panic on the out-of-range index instead of
returning the bad-range error, and `Iterate(-1, -1, cb)` returns no error. -/
theorem negative_begin_not_rejected :
    NewVector.Seal.1.checkBounds (-1) 0 = none ∧
    NewVector.Seal.1.Iterate (-1) 0 logAll [] = Outcome.panic ∧
    NewVector.Seal.1.FindLowerBound (-1) 0 ⟨⟨0, [0, 0]⟩⟩ = Outcome.panic ∧
    NewVector.Seal.1.Fingerprint sumOps (-1) 0 = Outcome.panic ∧
    NewVector.Seal.1.Iterate (-1) (-1) logAll [] = Outcome.ret ([], none) := by
  refine ⟨by decide, ?_, by decide, ?_, ?_⟩
  · simp [Vector.Iterate, Vector.checkSealed, Vector.checkBounds, Vector.Seal, NewVector,
      sortSlice, iterateLoop, itemAt]
  · simp [Vector.Fingerprint, Vector.Iterate, Vector.checkSealed, Vector.checkBounds,
      Vector.Seal, NewVector, sortSlice, iterateLoop, itemAt]
  · simp [Vector.Iterate, Vector.checkSealed, Vector.checkBounds, Vector.Seal, NewVector,
      sortSlice, iterateLoop]

/-! ### `Fingerprint` -/

/-- The loop of `Iterate` with the visitor of `Fingerprint` (which always
continues) absorbs the records at indices `b, ..., e - 1` in order. -/
theorem iterateLoop_addItem {Acc : Type} (add : Acc → Item → Acc) (items : List Item)
    (e : Nat) (he : e ≤ items.length) :
    ∀ (d b : Nat) (s : Acc), e - b = d → b ≤ e →
      iterateLoop items (fun out item _ => (true, add out item)) (e : Int) (b : Int) s =
        Outcome.ret (((items.drop b).take (e - b)).foldl add s) := by
  intro d
  induction d with
  | zero =>
    intro b s hd hbe
    have heq : e - b = 0 := hd
    rw [iterateLoop, if_neg (by omega), heq]
    simp
  | succ d ih =>
    intro b s hd hbe
    have hlt : b < e := by omega
    have hbl : b < items.length := by omega
    have hcast : ((b : Int) + 1) = ((b + 1 : Nat) : Int) := by push_cast; rfl
    rw [iterateLoop, if_pos (by omega), itemAt_ofNat, List.getElem?_eq_getElem hbl]
    simp only
    rw [hcast, ih (b + 1) _ (by omega) (by omega)]
    have hsplit : (items.drop b).take (e - b) =
        items[b] :: (items.drop (b + 1)).take (e - (b + 1)) := by
      rw [List.drop_eq_getElem_cons hbl]
      have : e - b = (e - (b + 1)) + 1 := by omega
      rw [this, List.take_succ_cons]
    rw [hsplit, List.foldl_cons]

theorem Vector.fingerprint_of_sealed {Acc FP : Type} (ops : AccumulatorOps Acc FP) (v : Vector)
    (hs : v.sealed = true) (begin_ end_ : Int) (h0 : 0 ≤ begin_) (h1 : begin_ ≤ end_)
    (h2 : end_ ≤ (v.items.length : Int)) :
    v.Fingerprint ops begin_ end_ =
      Outcome.ret (ops.GetFingerprint
        ((rangeItems v.items begin_ end_).foldl ops.AddItem (ops.SetToZero ops.zeroValue))
        (end_ - begin_), none) := by
  obtain ⟨b, rfl⟩ := Int.eq_ofNat_of_zero_le h0
  obtain ⟨e, rfl⟩ := Int.eq_ofNat_of_zero_le (le_trans h0 h1)
  have hbe : b ≤ e := by exact_mod_cast h1
  have hel : e ≤ v.items.length := by exact_mod_cast h2
  have hn : ((e : Int) - (b : Int)).toNat = e - b := by omega
  simp only [Vector.Fingerprint, Vector.Iterate, Vector.checkSealed, Vector.checkBounds, hs,
    rangeItems, hn, Int.toNat_ofNat]
  rw [if_neg (by simp), if_neg (by omega)]
  simp only [iterateLoop_addItem ops.AddItem v.items e hel (e - b) b _ rfl hbe]

theorem rangeItems_length (items : List Item) (begin_ end_ : Int) (h0 : 0 ≤ begin_)
    (h1 : begin_ ≤ end_) (h2 : end_ ≤ (items.length : Int)) :
    ((rangeItems items begin_ end_).length : Int) = end_ - begin_ := by
  simp only [rangeItems, List.length_take, List.length_drop]
  omega

theorem rangeItems_getElem (items : List Item) (begin_ end_ : Int) (h0 : 0 ≤ begin_)
    (k : Nat) (hk : (k : Int) < end_ - begin_) :
    (rangeItems items begin_ end_)[k]? = itemAt items (begin_ + (k : Int)) := by
  obtain ⟨b, rfl⟩ := Int.eq_ofNat_of_zero_le h0
  have hcast : ((b : Int) + (k : Int)) = ((b + k : Nat) : Int) := by push_cast; rfl
  have hk2 : k < (end_ - (b : Int)).toNat := by omega
  rw [hcast, itemAt_ofNat]
  simp only [rangeItems, Int.toNat_ofNat]
  rw [List.getElem?_take_of_lt hk2, List.getElem?_drop]

/-- C6: on a Vector with the flag set and a range
`0 <= begin <= end <= len(items)`, `Fingerprint(begin, end)` returns without
error `GetFingerprint(end - begin)` of the accumulator obtained by `SetToZero`
followed by `AddItem` of `items[begin], ..., items[end-1]`, each once and in
order; the count `end - begin` is the number of records absorbed.  On a fresh
Vector `Seal()` succeeds and `Fingerprint(0, 0)` is the zero accumulator
finalised with count 0. -/
theorem fingerprint_spec {Acc FP : Type} (ops : AccumulatorOps Acc FP) (v : Vector)
    (hs : v.sealed = true) (begin_ end_ : Int) (h0 : 0 ≤ begin_) (h1 : begin_ ≤ end_)
    (h2 : end_ ≤ (v.items.length : Int)) :
    v.Fingerprint ops begin_ end_ =
      Outcome.ret (ops.GetFingerprint
        ((rangeItems v.items begin_ end_).foldl ops.AddItem (ops.SetToZero ops.zeroValue))
        (end_ - begin_), none) ∧
    ((rangeItems v.items begin_ end_).length : Int) = end_ - begin_ ∧
    (∀ k : Nat, (k : Int) < end_ - begin_ →
      ∃ it, (rangeItems v.items begin_ end_)[k]? = some it ∧
        itemAt v.items (begin_ + (k : Int)) = some it) ∧
    NewVector.Seal = ({ items := [], sealed := true }, none) ∧
    NewVector.Seal.1.Fingerprint ops 0 0 =
      Outcome.ret (ops.GetFingerprint (ops.SetToZero ops.zeroValue) 0, none) := by
  refine ⟨Vector.fingerprint_of_sealed ops v hs begin_ end_ h0 h1 h2,
    rangeItems_length v.items begin_ end_ h0 h1 h2, ?_, by decide, ?_⟩
  · intro k hk
    obtain ⟨it, hit⟩ := itemAt_of_lt v.items (begin_ + (k : Int)) (by omega) (by omega)
    exact ⟨it, by rw [rangeItems_getElem v.items begin_ end_ h0 k hk]; exact hit, hit⟩
  · have := Vector.fingerprint_of_sealed ops NewVector.Seal.1 (by decide) 0 0 (by decide)
      (by decide) (by decide)
    simpa [rangeItems] using this

theorem fingerprint_spec_witness :
    (Vector.run 2 NewVector sampleCalls).Fingerprint sumOps 1 3 =
      Outcome.ret (sumOps.GetFingerprint
        ((rangeItems (Vector.run 2 NewVector sampleCalls).items 1 3).foldl sumOps.AddItem
          (sumOps.SetToZero sumOps.zeroValue))
        (3 - 1), none) ∧
    ((rangeItems (Vector.run 2 NewVector sampleCalls).items 1 3).length : Int) = 3 - 1 ∧
    (∀ k : Nat, (k : Int) < 3 - 1 →
      ∃ it, (rangeItems (Vector.run 2 NewVector sampleCalls).items 1 3)[k]? = some it ∧
        itemAt (Vector.run 2 NewVector sampleCalls).items (1 + (k : Int)) = some it) ∧
    NewVector.Seal = ({ items := [], sealed := true }, none) ∧
    NewVector.Seal.1.Fingerprint sumOps 0 0 =
      Outcome.ret (sumOps.GetFingerprint (sumOps.SetToZero sumOps.zeroValue) 0, none) :=
  fingerprint_spec sumOps (Vector.run 2 NewVector sampleCalls) (by decide) 1 3 (by decide)
    (by decide) (by decide)

/-! ### Insertion order -/

theorem Vector.run_insertItems (IDSize : Nat) (l : List Item)
    (hvalid : ∀ it ∈ l, it.ID.length = IDSize) :
    ∀ v : Vector, v.sealed = false →
      v.run IDSize (l.map Call.InsertItem) = { items := v.items ++ l, sealed := false } := by
  induction l with
  | nil =>
    intro v hs
    cases v
    simp_all [Vector.run]
  | cons x xs ih =>
    intro v hs
    have hx : x.ID.length = IDSize := hvalid x (List.mem_cons_self x xs)
    have hstep : v.step IDSize (Call.InsertItem x) =
        { items := v.items ++ [x], sealed := false } := by
      simp [Vector.step, Vector.InsertItem, Vector.Insert, hs, hx, NewItemWithID]
    have hrun : v.run IDSize ((x :: xs).map Call.InsertItem) =
        (v.step IDSize (Call.InsertItem x)).run IDSize (xs.map Call.InsertItem) := rfl
    rw [hrun, hstep, ih (fun it hit => hvalid it (List.mem_cons_of_mem x hit)) _ rfl]
    simp

theorem insertAll_eq (IDSize : Nat) (l : List Item) (hvalid : ∀ it ∈ l, it.ID.length = IDSize) :
    insertAll IDSize l = { items := l, sealed := false } := by
  rw [insertAll, Vector.run_insertItems IDSize l hvalid NewVector rfl]
  simp [NewVector]

/-- C7: when two lists of records with valid ids and no duplicates are
rearrangements of each other, inserting each into a fresh Vector and sealing
succeeds on both and gives the same `Size()` (the number of records) and the
same `Fingerprint(a, b)` for every range, `Fingerprint(0, Size())` included. -/
theorem fingerprint_insertion_order {Acc FP : Type} (ops : AccumulatorOps Acc FP)
    (IDSize : Nat) (l1 l2 : List Item) (hp : l1.Perm l2)
    (hvalid : ∀ it ∈ l1, it.ID.length = IDSize) (hnodup : l1.Nodup) :
    (insertAll IDSize l1).Seal.2 = none ∧ (insertAll IDSize l2).Seal.2 = none ∧
    (insertAll IDSize l1).Seal.1.Size = (l1.length : Int) ∧
    (insertAll IDSize l1).Seal.1.Size = (insertAll IDSize l2).Seal.1.Size ∧
    (insertAll IDSize l1).Seal.1.Fingerprint ops 0 (insertAll IDSize l1).Seal.1.Size =
      (insertAll IDSize l2).Seal.1.Fingerprint ops 0 (insertAll IDSize l2).Seal.1.Size ∧
    (∀ a b : Int, (insertAll IDSize l1).Seal.1.Fingerprint ops a b =
      (insertAll IDSize l2).Seal.1.Fingerprint ops a b) := by
  have hvalid2 : ∀ it ∈ l2, it.ID.length = IDSize := fun it hit => hvalid it (hp.mem_iff.mpr hit)
  have hstate : (insertAll IDSize l1).Seal = (insertAll IDSize l2).Seal := by
    rw [insertAll_eq IDSize l1 hvalid, insertAll_eq IDSize l2 hvalid2,
      Vector.seal_of_open _ rfl, Vector.seal_of_open _ rfl]
    simp only [sortSlice_congr_perm l1 l2 hp]
  have hok : (insertAll IDSize l1).Seal.2 = none := by
    rw [insertAll_eq IDSize l1 hvalid]
    exact (Vector.seal_none_iff_nodup { items := l1, sealed := false } rfl).mpr hnodup
  have hsize : (insertAll IDSize l1).Seal.1.Size = (l1.length : Int) := by
    rw [insertAll_eq IDSize l1 hvalid, Vector.seal_of_open _ rfl]
    simp [Vector.Size, Vector.checkSealed, (sortSlice_perm Item.LessThan l1).length_eq]
  refine ⟨hok, hstate ▸ hok, hsize, by rw [hstate], by rw [hstate], fun a b => by rw [hstate]⟩

theorem fingerprint_insertion_order_witness :
    (insertAll 2 sampleItems).Seal.2 = none ∧ (insertAll 2 sampleItems.reverse).Seal.2 = none ∧
    (insertAll 2 sampleItems).Seal.1.Size = (sampleItems.length : Int) ∧
    (insertAll 2 sampleItems).Seal.1.Size = (insertAll 2 sampleItems.reverse).Seal.1.Size ∧
    (insertAll 2 sampleItems).Seal.1.Fingerprint sumOps 0 (insertAll 2 sampleItems).Seal.1.Size =
      (insertAll 2 sampleItems.reverse).Seal.1.Fingerprint sumOps 0
        (insertAll 2 sampleItems.reverse).Seal.1.Size ∧
    (∀ a b : Int, (insertAll 2 sampleItems).Seal.1.Fingerprint sumOps a b =
      (insertAll 2 sampleItems.reverse).Seal.1.Fingerprint sumOps a b) :=
  fingerprint_insertion_order sumOps 2 sampleItems sampleItems.reverse
    (List.reverse_perm sampleItems).symm (by decide) (by decide)

/-! ### Reads on an open Vector -/

/-- C11: on an open Vector, whatever its contents and the arguments,
`GetItem`, `Iterate`, `FindLowerBound` and `Fingerprint` each return the
not-sealed error (before any bounds or index check, so never the bad-range or
index-out-of-bounds error), `Iterate` returns with the visitor's state
untouched (the visitor is never invoked, no item is absorbed), and `Size()`
returns 0. -/
theorem reads_on_open_not_sealed {Acc FP σ : Type} (ops : AccumulatorOps Acc FP)
    (IDSize : Nat) (v : Vector) (hopen : v.sealed = false) (i : Nat) (begin_ end_ : Int)
    (cb : σ → Item → Int → Bool × σ) (s : σ) (bound : Bound) :
    v.GetItem IDSize i = (Item.zero IDSize, some Error.notSealed) ∧
    v.Iterate begin_ end_ cb s = Outcome.ret (s, some Error.notSealed) ∧
    v.FindLowerBound begin_ end_ bound = Outcome.ret (0, some Error.notSealed) ∧
    v.Fingerprint ops begin_ end_ = Outcome.ret (ops.zeroFingerprint, some Error.notSealed) ∧
    v.Size = 0 := by
  refine ⟨?_, ?_, ?_, ?_, ?_⟩
  · simp [Vector.GetItem, Vector.checkSealed, hopen]
  · simp [Vector.Iterate, Vector.checkSealed, hopen]
  · simp [Vector.FindLowerBound, Vector.checkSealed, hopen]
  · simp [Vector.Fingerprint, Vector.Iterate, Vector.checkSealed, hopen]
  · simp [Vector.Size, Vector.checkSealed, hopen]

theorem reads_on_open_not_sealed_witness :
    Vector.GetItem 2 ⟨sampleItems, false⟩ 7 = (Item.zero 2, some Error.notSealed) ∧
    Vector.Iterate ⟨sampleItems, false⟩ 3 1 logAll [] = Outcome.ret ([], some Error.notSealed) ∧
    Vector.FindLowerBound ⟨sampleItems, false⟩ 3 1 ⟨⟨50, [2, 0]⟩⟩ =
      Outcome.ret (0, some Error.notSealed) ∧
    Vector.Fingerprint sumOps ⟨sampleItems, false⟩ 3 1 =
      Outcome.ret (sumOps.zeroFingerprint, some Error.notSealed) ∧
    Vector.Size ⟨sampleItems, false⟩ = 0 :=
  reads_on_open_not_sealed sumOps 2 ⟨sampleItems, false⟩ rfl 7 3 1 logAll [] ⟨⟨50, [2, 0]⟩⟩

/-! ### `Unseal` -/

/-- C17: `Unseal()` on any Vector, sealed or open, has no failure path: it
sets the `sealed` flag to false and leaves the stored sequence as it was, and
calling it twice is the same as calling it once. -/
theorem unseal_spec (v : Vector) :
    v.Unseal.sealed = false ∧ v.Unseal.items = v.items ∧ v.Unseal.Unseal = v.Unseal := by
  simp [Vector.Unseal]

/-! ### `Seal` keeps the records -/

/-- C19: `Seal()` on an open Vector, whether it returns no error or the
duplicate-item error (it returns nothing else), leaves a sequence that is a
rearrangement of the sequence before (same records, same multiplicities) and
is sorted in non-decreasing Record order; on a sealed Vector it returns the
already-sealed error and leaves the Vector untouched. -/
theorem seal_keeps_records (v : Vector) :
    (v.sealed = false →
      (v.Seal.2 = none ∨ v.Seal.2 = some Error.duplicateItem) ∧
      v.Seal.1.items.Perm v.items ∧ v.Seal.1.items.Pairwise Item.le) ∧
    (v.sealed = true → v.Seal = (v, some Error.alreadySealed)) := by
  refine ⟨?_, Vector.seal_of_sealed v⟩
  intro hopen
  rw [Vector.seal_of_open v hopen]
  exact ⟨sealScan_eq _, sortSlice_perm _ v.items, sortSlice_sorted v.items⟩

/-! ### `GetItem` -/

theorem Vector.size_of_sealed (v : Vector) (hs : v.sealed = true) :
    v.Size = (v.items.length : Int) := by
  simp [Vector.Size, Vector.checkSealed, hs]

theorem Vector.getItem_of_sealed (IDSize : Nat) (v : Vector) (hs : v.sealed = true) (i : Nat) :
    v.GetItem IDSize i =
      match v.items[i]? with
      | none => (Item.zero IDSize, some Error.indexOutOfBounds)
      | some it => (it, none) := by
  simp [Vector.GetItem, Vector.checkSealed, hs]

/-- C14: on a Vector with the flag set, `GetItem(i)` returns the
index-out-of-bounds error if and only if `i >= Size()`; otherwise it returns
without error the record stored at position `i`.  `GetItem` assigns no field
of the Vector: its embedding returns no new Vector. -/
theorem getItem_spec (IDSize : Nat) (v : Vector) (hs : v.sealed = true) (i : Nat) :
    ((v.GetItem IDSize i).2 = some Error.indexOutOfBounds ↔ v.Size ≤ (i : Int)) ∧
    (v.Size ≤ (i : Int) → v.GetItem IDSize i = (Item.zero IDSize, some Error.indexOutOfBounds)) ∧
    (∀ h : i < v.items.length, v.GetItem IDSize i = (v.items.get ⟨i, h⟩, none)) ∧
    ((i : Int) < v.Size → i < v.items.length) := by
  rw [Vector.size_of_sealed v hs, Vector.getItem_of_sealed IDSize v hs]
  by_cases h : i < v.items.length
  · simp only [List.getElem?_eq_getElem h]
    refine ⟨?_, ?_, ?_, ?_⟩
    · constructor
      · intro hc; cases hc
      · intro hc; omega
    · intro hc; omega
    · intro _; rfl
    · intro _; exact h
  · have hnone : v.items[i]? = none := List.getElem?_eq_none (by omega)
    simp only [hnone]
    refine ⟨?_, ?_, ?_, ?_⟩
    · constructor
      · intro _; omega
      · intro _; trivial
    · intro _; trivial
    · intro h2; exact absurd h2 h
    · intro hc; omega

theorem getItem_spec_witness :
    ((Vector.GetItem 2 (Vector.run 2 NewVector sampleCalls) 1).2 = some Error.indexOutOfBounds ↔
      (Vector.run 2 NewVector sampleCalls).Size ≤ ((1 : Nat) : Int)) ∧
    ((Vector.run 2 NewVector sampleCalls).Size ≤ ((1 : Nat) : Int) →
      Vector.GetItem 2 (Vector.run 2 NewVector sampleCalls) 1 =
        (Item.zero 2, some Error.indexOutOfBounds)) ∧
    (∀ h : 1 < (Vector.run 2 NewVector sampleCalls).items.length,
      Vector.GetItem 2 (Vector.run 2 NewVector sampleCalls) 1 =
        ((Vector.run 2 NewVector sampleCalls).items.get ⟨1, h⟩, none)) ∧
    (((1 : Nat) : Int) < (Vector.run 2 NewVector sampleCalls).Size →
      1 < (Vector.run 2 NewVector sampleCalls).items.length) :=
  getItem_spec 2 (Vector.run 2 NewVector sampleCalls) (by decide) 1

/-! ### Round trip -/

theorem Vector.seal_success_state (v : Vector) (hok : v.Seal.2 = none) :
    v.sealed = false ∧ v.Seal.1.sealed = true ∧
    v.Seal.1.items.Pairwise (fun a b => a.LessThan b = true) := by
  cases hs : v.sealed with
  | true =>
    rw [Vector.seal_of_sealed v hs] at hok
    cases hok
  | false =>
    rw [Vector.seal_of_open v hs] at hok ⊢
    exact ⟨rfl, rfl, (sealScan_none_iff _ (sortSlice_sorted v.items)).mp hok⟩

theorem strict_pairwise_le (l : List Item) (h : l.Pairwise (fun a b => a.LessThan b = true)) :
    l.Pairwise Item.le :=
  List.Pairwise.imp (fun {a b} hab => Item.lessThan_asymm a b hab) h

theorem Vector.seal_unseal_seal (v : Vector) (hok : v.Seal.2 = none) :
    v.Seal.1.Unseal.Seal = (v.Seal.1, none) := by
  obtain ⟨_, hflag, hstrict⟩ := Vector.seal_success_state v hok
  have hopen : v.Seal.1.Unseal.sealed = false := rfl
  have hitems : v.Seal.1.Unseal.items = v.Seal.1.items := rfl
  rw [Vector.seal_of_open _ hopen, hitems, sortSlice_of_sorted _ (strict_pairwise_le _ hstrict),
    (sealScan_none_iff _ (strict_pairwise_le _ hstrict)).mpr hstrict]
  congr 1
  cases hv : v.Seal.1 with
  | mk items sealed =>
    rw [hv] at hflag
    simp only at hflag
    rw [hflag]

/-- C20: when `Seal()` has just returned no error, `Unseal()` followed by
`Seal()` with no insertion in between returns no error and leaves the Vector
(sequence and flag) identical, so `Size()`, `GetItem(i)`, `FindLowerBound` and
`Fingerprint` return the same results as before for all arguments. -/
theorem seal_unseal_round_trip {Acc FP : Type} (ops : AccumulatorOps Acc FP) (IDSize : Nat)
    (v : Vector) (hok : v.Seal.2 = none) :
    v.Seal.1.Unseal.Seal.2 = none ∧
    v.Seal.1.Unseal.Seal.1.items = v.Seal.1.items ∧
    v.Seal.1.Unseal.Seal.1.sealed = v.Seal.1.sealed ∧
    v.Seal.1.Unseal.Seal.1.Size = v.Seal.1.Size ∧
    (∀ i : Nat, v.Seal.1.Unseal.Seal.1.GetItem IDSize i = v.Seal.1.GetItem IDSize i) ∧
    (∀ (a b : Int) (bound : Bound),
      v.Seal.1.Unseal.Seal.1.FindLowerBound a b bound = v.Seal.1.FindLowerBound a b bound) ∧
    (∀ a b : Int,
      v.Seal.1.Unseal.Seal.1.Fingerprint ops a b = v.Seal.1.Fingerprint ops a b) := by
  rw [Vector.seal_unseal_seal v hok]
  exact ⟨rfl, rfl, rfl, rfl, fun _ => rfl, fun _ _ _ => rfl, fun _ _ => rfl⟩

theorem seal_unseal_round_trip_witness :
    (Vector.Seal ⟨sampleItems, false⟩).1.Unseal.Seal.2 = none ∧
    (Vector.Seal ⟨sampleItems, false⟩).1.Unseal.Seal.1.items =
      (Vector.Seal ⟨sampleItems, false⟩).1.items ∧
    (Vector.Seal ⟨sampleItems, false⟩).1.Unseal.Seal.1.sealed =
      (Vector.Seal ⟨sampleItems, false⟩).1.sealed ∧
    (Vector.Seal ⟨sampleItems, false⟩).1.Unseal.Seal.1.Size =
      (Vector.Seal ⟨sampleItems, false⟩).1.Size ∧
    (∀ i : Nat, (Vector.Seal ⟨sampleItems, false⟩).1.Unseal.Seal.1.GetItem 2 i =
      (Vector.Seal ⟨sampleItems, false⟩).1.GetItem 2 i) ∧
    (∀ (a b : Int) (bound : Bound),
      (Vector.Seal ⟨sampleItems, false⟩).1.Unseal.Seal.1.FindLowerBound a b bound =
        (Vector.Seal ⟨sampleItems, false⟩).1.FindLowerBound a b bound) ∧
    (∀ a b : Int,
      (Vector.Seal ⟨sampleItems, false⟩).1.Unseal.Seal.1.Fingerprint sumOps a b =
        (Vector.Seal ⟨sampleItems, false⟩).1.Fingerprint sumOps a b) :=
  seal_unseal_round_trip sumOps 2 ⟨sampleItems, false⟩ (by decide)

/-! ### Fingerprint determinism -/

/-- C18: for two Vectors with the flag set and ranges within them whose
sub-slices `v.items[a:b]` and `w.items[c:d]` are equal element by element,
`v.Fingerprint(a, b)` and `w.Fingerprint(c, d)` return the same value without
error.  `Fingerprint` assigns no field of the Vector (its embedding returns no
new Vector), so a repeated call is the same call. -/
theorem fingerprint_deterministic {Acc FP : Type} (ops : AccumulatorOps Acc FP) (v w : Vector)
    (hv : v.sealed = true) (hw : w.sealed = true) (a b c d : Int)
    (ha : 0 ≤ a) (hab : a ≤ b) (hb : b ≤ (v.items.length : Int))
    (hc : 0 ≤ c) (hcd : c ≤ d) (hd : d ≤ (w.items.length : Int))
    (heq : rangeItems v.items a b = rangeItems w.items c d) :
    v.Fingerprint ops a b = w.Fingerprint ops c d ∧
    ∃ fp, v.Fingerprint ops a b = Outcome.ret (fp, none) := by
  have hlen : b - a = d - c := by
    rw [← rangeItems_length v.items a b ha hab hb, ← rangeItems_length w.items c d hc hcd hd, heq]
  rw [Vector.fingerprint_of_sealed ops v hv a b ha hab hb,
    Vector.fingerprint_of_sealed ops w hw c d hc hcd hd, heq, hlen]
  exact ⟨rfl, _, rfl⟩

theorem fingerprint_deterministic_witness :
    Vector.Fingerprint sumOps ⟨[⟨1, [0, 0]⟩, ⟨5, [1, 1]⟩, ⟨6, [2, 2]⟩], true⟩ 1 3 =
      Vector.Fingerprint sumOps ⟨[⟨5, [1, 1]⟩, ⟨6, [2, 2]⟩, ⟨9, [0, 0]⟩], true⟩ 0 2 ∧
    ∃ fp, Vector.Fingerprint sumOps ⟨[⟨1, [0, 0]⟩, ⟨5, [1, 1]⟩, ⟨6, [2, 2]⟩], true⟩ 1 3 =
      Outcome.ret (fp, none) :=
  fingerprint_deterministic sumOps ⟨[⟨1, [0, 0]⟩, ⟨5, [1, 1]⟩, ⟨6, [2, 2]⟩], true⟩
    ⟨[⟨5, [1, 1]⟩, ⟨6, [2, 2]⟩, ⟨9, [0, 0]⟩], true⟩ rfl rfl 1 3 0 2
    (by decide) (by decide) (by decide) (by decide) (by decide) (by decide) (by decide)

/-! ### Lower bound of stored and of large keys -/

theorem isLowerBound_of_split (items : List Item) (bound : Bound) (k : Nat)
    (hk : k ≤ items.length)
    (hlo : ∀ (j : Nat) (h : j < items.length), j < k →
      (items.get ⟨j, h⟩).LessThan bound.Item = true)
    (hhi : ∀ (j : Nat) (h : j < items.length), k ≤ j →
      (items.get ⟨j, h⟩).LessThan bound.Item = false) :
    IsLowerBound items 0 (items.length : Int) bound (k : Int) := by
  refine ⟨by omega, by omega, ?_, ?_⟩
  · intro j hj0 hjk
    obtain ⟨m, rfl⟩ := Int.eq_ofNat_of_zero_le hj0
    have hm : m < items.length := by omega
    exact ⟨items.get ⟨m, hm⟩, by rw [itemAt_ofNat]; exact List.getElem?_eq_getElem hm,
      hlo m hm (by omega)⟩
  · intro j hkj hjn
    obtain ⟨m, rfl⟩ := Int.eq_ofNat_of_zero_le (by omega : (0 : Int) ≤ j)
    have hm : m < items.length := by omega
    exact ⟨items.get ⟨m, hm⟩, by rw [itemAt_ofNat]; exact List.getElem?_eq_getElem hm,
      hhi m hm (by omega)⟩

theorem Vector.findLowerBound_eq_of_split (v : Vector) (hs : v.sealed = true)
    (hsorted : v.items.Pairwise Item.le) (bound : Bound) (k : Nat)
    (hsplit : IsLowerBound v.items 0 (v.items.length : Int) bound (k : Int)) :
    v.FindLowerBound 0 (v.items.length : Int) bound = Outcome.ret ((k : Int), none) := by
  obtain ⟨r, hret, hlb⟩ := findLowerBound_of_sorted v hs hsorted 0 (v.items.length : Int)
    (le_refl 0) (by omega) (le_refl _) bound
  rw [hret, isLowerBound_unique _ _ _ _ r (k : Int) hlb hsplit]

/-- C15: on a Vector on which `Seal()` returned no error, holding `n` records:
for every `k < n`, `FindLowerBound(0, n, bound)` with a bound whose item is
the record at position `k` returns `k`; and for every bound whose item is
greater than all stored records it returns `n`. -/
theorem findLowerBound_of_stored (v : Vector) (hok : v.Seal.2 = none) :
    (∀ (k : Nat) (hk : k < v.Seal.1.items.length) (bound : Bound),
      bound.Item = v.Seal.1.items.get ⟨k, hk⟩ →
      v.Seal.1.FindLowerBound 0 (v.Seal.1.items.length : Int) bound =
        Outcome.ret ((k : Int), none)) ∧
    (∀ bound : Bound, (∀ it ∈ v.Seal.1.items, it.LessThan bound.Item = true) →
      v.Seal.1.FindLowerBound 0 (v.Seal.1.items.length : Int) bound =
        Outcome.ret ((v.Seal.1.items.length : Int), none)) := by
  obtain ⟨_, hflag, hstrict⟩ := Vector.seal_success_state v hok
  have hsorted := strict_pairwise_le _ hstrict
  constructor
  · intro k hk bound hb
    apply Vector.findLowerBound_eq_of_split _ hflag hsorted bound k
    apply isLowerBound_of_split _ bound k (le_of_lt hk)
    · intro j hj hjk
      rw [hb]
      exact List.pairwise_iff_get.mp hstrict ⟨j, hj⟩ ⟨k, hk⟩ hjk
    · intro j hj hkj
      rw [hb]
      rcases Nat.lt_or_eq_of_le hkj with hlt | heq
      · exact Item.lessThan_asymm _ _
          (List.pairwise_iff_get.mp hstrict ⟨k, hk⟩ ⟨j, hj⟩ hlt)
      · subst heq
        exact Item.lessThan_irrefl _
  · intro bound hall
    apply Vector.findLowerBound_eq_of_split _ hflag hsorted bound _
    apply isLowerBound_of_split _ bound _ (le_refl _)
    · intro j hj _
      exact hall _ (List.get_mem _ _ _)
    · intro j hj hnj
      omega

theorem findLowerBound_of_stored_witness :
    (Vector.Seal ⟨sampleFive, false⟩).2 = none ∧
    (Vector.Seal ⟨sampleFive, false⟩).1.items =
      [⟨10, [9, 9]⟩, ⟨20, [7, 7]⟩, ⟨30, [0, 0]⟩, ⟨30, [0, 1]⟩, ⟨40, [5, 5]⟩] ∧
    (Vector.Seal ⟨sampleFive, false⟩).1.FindLowerBound 0 5 ⟨⟨30, [0, 0]⟩⟩ =
      Outcome.ret (2, none) ∧
    (Vector.Seal ⟨sampleFive, false⟩).1.FindLowerBound 0 5 ⟨⟨41, [0, 0]⟩⟩ =
      Outcome.ret (5, none) :=
  ⟨by decide, by decide,
    (findLowerBound_of_stored ⟨sampleFive, false⟩ (by decide)).1 2 (by decide)
      ⟨⟨30, [0, 0]⟩⟩ (by decide),
    (findLowerBound_of_stored ⟨sampleFive, false⟩ (by decide)).2 ⟨⟨41, [0, 0]⟩⟩ (by decide)⟩

/-! ### Sorted access -/

/-- In a strictly ascending sequence the record at position `i` has exactly
`i` records below it. -/
theorem rank_get_of_strict (s : List Item)
    (h : s.Pairwise (fun a b => a.LessThan b = true)) :
    ∀ (i : Nat) (hi : i < s.length), rank s (s.get ⟨i, hi⟩) = i := by
  induction s with
  | nil =>
    intro i hi
    exact absurd hi (by simp)
  | cons a t ih =>
    obtain ⟨ha, ht⟩ := List.pairwise_cons.mp h
    intro i hi
    cases i with
    | zero =>
      have hget : (a :: t).get ⟨0, hi⟩ = a := rfl
      rw [hget]
      unfold rank
      rw [List.countP_eq_zero]
      intro y hy
      rcases List.mem_cons.mp hy with hya | hyt
      · rw [hya, Item.lessThan_irrefl]
        simp
      · rw [Item.lessThan_asymm a y (ha y hyt)]
        simp
    | succ j =>
      have hj : j < t.length := by simpa using hi
      have hget : (a :: t).get ⟨j + 1, hi⟩ = t.get ⟨j, hj⟩ := rfl
      have hlt : a.LessThan (t.get ⟨j, hj⟩) = true := ha _ (List.get_mem t j hj)
      have hrec := ih ht j hj
      unfold rank at hrec ⊢
      rw [hget, List.countP_cons, hrec, if_pos hlt]

theorem rank_perm (l1 l2 : List Item) (hp : l1.Perm l2) (x : Item) : rank l1 x = rank l2 x :=
  hp.countP_eq _

/-- C13: when `n` pairwise distinct records with valid ids are inserted, in
whatever order, into a fresh Vector, `Seal()` returns no error, `Size()` is
`n`, and for every `i < n` `GetItem(i)` returns without error the record of
rank `i` of the inserted records: an inserted record with exactly `i` inserted
records `LessThan` it.  Another insertion order of the same records gives the
same answers. -/
theorem sorted_access (IDSize : Nat) (l : List Item)
    (hvalid : ∀ it ∈ l, it.ID.length = IDSize) (hnodup : l.Nodup) :
    (insertAll IDSize l).Seal.2 = none ∧
    (insertAll IDSize l).Seal.1.Size = (l.length : Int) ∧
    (∀ i : Nat, i < l.length →
      ∃ it, (insertAll IDSize l).Seal.1.GetItem IDSize i = (it, none) ∧
        it ∈ l ∧ rank l it = i) ∧
    (∀ l2 : List Item, l2.Perm l → ∀ i : Nat,
      (insertAll IDSize l2).Seal.1.GetItem IDSize i =
        (insertAll IDSize l).Seal.1.GetItem IDSize i) := by
  have hok : (insertAll IDSize l).Seal.2 = none := by
    rw [insertAll_eq IDSize l hvalid]
    exact (Vector.seal_none_iff_nodup { items := l, sealed := false } rfl).mpr hnodup
  obtain ⟨_, hflag, hstrict⟩ := Vector.seal_success_state _ hok
  have hperm : (insertAll IDSize l).Seal.1.items.Perm l := by
    rw [insertAll_eq IDSize l hvalid, Vector.seal_of_open _ rfl]
    exact sortSlice_perm _ l
  refine ⟨hok, ?_, ?_, ?_⟩
  · rw [Vector.size_of_sealed _ hflag, hperm.length_eq]
  · intro i hi
    have hi2 : i < (insertAll IDSize l).Seal.1.items.length := by
      rw [hperm.length_eq]
      exact hi
    refine ⟨(insertAll IDSize l).Seal.1.items.get ⟨i, hi2⟩, ?_, ?_, ?_⟩
    · rw [Vector.getItem_of_sealed IDSize _ hflag]
      simp only [List.getElem?_eq_getElem hi2]
      rfl
    · exact hperm.mem_iff.mp (List.get_mem _ i hi2)
    · rw [← rank_perm _ _ hperm]
      exact rank_get_of_strict _ hstrict i hi2
  · intro l2 hp i
    have hvalid2 : ∀ it ∈ l2, it.ID.length = IDSize :=
      fun it hit => hvalid it (hp.mem_iff.mp hit)
    rw [insertAll_eq IDSize l hvalid, insertAll_eq IDSize l2 hvalid2,
      Vector.seal_of_open _ rfl, Vector.seal_of_open _ rfl]
    simp only [sortSlice_congr_perm l2 l hp]

theorem sorted_access_witness :
    ((insertAll 2 sampleItems).Seal.2 = none ∧
      (insertAll 2 sampleItems).Seal.1.Size = (sampleItems.length : Int) ∧
      (∀ i : Nat, i < sampleItems.length →
        ∃ it, (insertAll 2 sampleItems).Seal.1.GetItem 2 i = (it, none) ∧
          it ∈ sampleItems ∧ rank sampleItems it = i) ∧
      (∀ l2 : List Item, l2.Perm sampleItems → ∀ i : Nat,
        (insertAll 2 l2).Seal.1.GetItem 2 i =
          (insertAll 2 sampleItems).Seal.1.GetItem 2 i)) ∧
    (insertAll 2 sampleItems).Seal.1.Size = 3 ∧
    (insertAll 2 sampleItems).Seal.1.GetItem 2 0 = (⟨50, [1, 0]⟩, none) ∧
    (insertAll 2 sampleItems).Seal.1.GetItem 2 1 = (⟨50, [2, 0]⟩, none) ∧
    (insertAll 2 sampleItems).Seal.1.GetItem 2 2 = (⟨100, [1, 0]⟩, none) :=
  ⟨sorted_access 2 sampleItems (by decide) (by decide), by decide, by decide, by decide,
    by decide⟩

/-! ### `Iterate` -/

/-- On a range within the slice the loop of `Iterate` does not panic and is
the traversal of the spec over the pairs `(items[i], i)`. -/
theorem iterateLoop_eq_visitAll {σ : Type} (cb : σ → Item → Int → Bool × σ) (items : List Item)
    (e : Nat) (he : e ≤ items.length) :
    ∀ (d b : Nat) (s : σ), e - b = d → b ≤ e →
      iterateLoop items cb (e : Int) (b : Int) s =
        Outcome.ret (visitAll cb (indexFrom (b : Int) ((items.drop b).take (e - b))) s) := by
  intro d
  induction d with
  | zero =>
    intro b s hd hbe
    have heq : e - b = 0 := hd
    rw [iterateLoop, if_neg (by omega), heq]
    simp [indexFrom, visitAll]
  | succ d ih =>
    intro b s hd hbe
    have hlt : b < e := by omega
    have hbl : b < items.length := by omega
    have hcast : ((b : Int) + 1) = ((b + 1 : Nat) : Int) := by push_cast; rfl
    have hsplit : (items.drop b).take (e - b) =
        items[b] :: (items.drop (b + 1)).take (e - (b + 1)) := by
      rw [List.drop_eq_getElem_cons hbl]
      have : e - b = (e - (b + 1)) + 1 := by omega
      rw [this, List.take_succ_cons]
    rw [iterateLoop, if_pos (by omega), itemAt_ofNat, List.getElem?_eq_getElem hbl, hsplit]
    simp only [indexFrom, visitAll]
    rcases hcb : cb s items[b] (b : Int) with ⟨c, s1⟩
    cases c with
    | true =>
      simp only
      rw [hcast, ih (b + 1) s1 (by omega) (by omega)]
    | false => rfl

theorem Vector.iterate_of_sealed {σ : Type} (v : Vector) (hs : v.sealed = true)
    (begin_ end_ : Int) (h0 : 0 ≤ begin_) (h1 : begin_ ≤ end_)
    (h2 : end_ ≤ (v.items.length : Int)) (cb : σ → Item → Int → Bool × σ) (s : σ) :
    v.Iterate begin_ end_ cb s =
      Outcome.ret (visitAll cb (rangePairs v.items begin_ end_) s, none) := by
  obtain ⟨b, rfl⟩ := Int.eq_ofNat_of_zero_le h0
  obtain ⟨e, rfl⟩ := Int.eq_ofNat_of_zero_le (le_trans h0 h1)
  have hbe : b ≤ e := by exact_mod_cast h1
  have hel : e ≤ v.items.length := by exact_mod_cast h2
  have hn : ((e : Int) - (b : Int)).toNat = e - b := by omega
  simp only [Vector.Iterate, Vector.checkSealed, Vector.checkBounds, hs, rangePairs,
    rangeItems, hn, Int.toNat_ofNat]
  rw [if_neg (by simp), if_neg (by omega)]
  simp only [iterateLoop_eq_visitAll cb v.items e hel (e - b) b s rfl hbe]

theorem visitAll_recordCalls {σ : Type} (cb : σ → Item → Int → Bool × σ) :
    ∀ (pairs : List (Item × Int)) (s : σ) (log : List (Item × Int × Bool)),
      visitAll (recordCalls cb) pairs (s, log) =
        (visitAll cb pairs s, log ++ callsOf cb pairs s) := by
  intro pairs
  induction pairs with
  | nil =>
    intro s log
    simp [visitAll, callsOf]
  | cons p rest ih =>
    intro s log
    obtain ⟨it, i⟩ := p
    simp only [visitAll, callsOf, recordCalls]
    rcases hcb : cb s it i with ⟨c, s1⟩
    cases c with
    | true =>
      simp only
      rw [ih s1]
      simp
    | false => rfl

theorem indexFrom_length (i : Int) (l : List Item) : (indexFrom i l).length = l.length := by
  induction l generalizing i with
  | nil => rfl
  | cons a t ih => simp [indexFrom, ih]

theorem indexFrom_getElem (l : List Item) :
    ∀ (i : Int) (k : Nat), (indexFrom i l)[k]? = (l[k]?).map (fun it => (it, i + (k : Int))) := by
  induction l with
  | nil =>
    intro i k
    simp [indexFrom]
  | cons a t ih =>
    intro i k
    cases k with
    | zero => simp [indexFrom]
    | succ j =>
      simp only [indexFrom, List.getElem?_cons_succ, ih]
      congr 1
      funext it
      congr 1
      push_cast
      omega

/-- The calls of the traversal: they are a front part of the pairs, every call
but the last was answered "continue", and when some pair was not visited the
last call was answered "stop". -/
theorem callsOf_spec {σ : Type} (cb : σ → Item → Int → Bool × σ) :
    ∀ (pairs : List (Item × Int)) (s : σ),
      (callsOf cb pairs s).map (fun c => (c.1, c.2.1)) =
        pairs.take (callsOf cb pairs s).length ∧
      (callsOf cb pairs s).length ≤ pairs.length ∧
      (∀ j : Nat, j + 1 < (callsOf cb pairs s).length →
        ∃ c, (callsOf cb pairs s)[j]? = some c ∧ c.2.2 = true) ∧
      ((callsOf cb pairs s).length < pairs.length →
        ∃ c, (callsOf cb pairs s)[(callsOf cb pairs s).length - 1]? = some c ∧ c.2.2 = false) ∧
      ((∀ s1 it i, (cb s1 it i).1 = true) → (callsOf cb pairs s).length = pairs.length) := by
  intro pairs
  induction pairs with
  | nil =>
    intro s
    simp [callsOf]
  | cons p rest ih =>
    intro s
    obtain ⟨it, i⟩ := p
    simp only [callsOf]
    rcases hcb : cb s it i with ⟨c, s1⟩
    cases c with
    | true =>
      obtain ⟨h1, h2, h3, h4, h5⟩ := ih s1
      simp only [List.map_cons, List.length_cons, List.take_succ_cons]
      refine ⟨by rw [h1], by omega, ?_, ?_, ?_⟩
      · intro j hj
        cases j with
        | zero => exact ⟨(it, i, true), by simp, rfl⟩
        | succ j =>
          obtain ⟨c, hc1, hc2⟩ := h3 j (by omega)
          exact ⟨c, by simpa using hc1, hc2⟩
      · intro hlt
        obtain ⟨c, hc1, hc2⟩ := h4 (by omega)
        have hpos : 0 < (callsOf cb rest s1).length := by
          by_contra hzero
          have hnil : (callsOf cb rest s1).length = 0 := by omega
          rw [hnil] at hc1
          rw [List.length_eq_zero.mp hnil] at hc1
          simp at hc1
        refine ⟨c, ?_, hc2⟩
        have hidx : (callsOf cb rest s1).length + 1 - 1 =
            ((callsOf cb rest s1).length - 1) + 1 := by omega
        rw [hidx, List.getElem?_cons_succ]
        exact hc1
      · intro hall
        rw [h5 hall]
    | false =>
      refine ⟨by simp, by simp, ?_, ?_, ?_⟩
      · intro j hj
        simp at hj
      · intro _
        exact ⟨(it, i, false), by simp, rfl⟩
      · intro hall
        have := hall s it i
        rw [hcb] at this
        cases this

theorem rangePairs_length (items : List Item) (begin_ end_ : Int) (h0 : 0 ≤ begin_)
    (h1 : begin_ ≤ end_) (h2 : end_ ≤ (items.length : Int)) :
    ((rangePairs items begin_ end_).length : Int) = end_ - begin_ := by
  rw [rangePairs, indexFrom_length]
  exact rangeItems_length items begin_ end_ h0 h1 h2

theorem rangePairs_getElem (items : List Item) (begin_ end_ : Int) (h0 : 0 ≤ begin_)
    (h2 : end_ ≤ (items.length : Int)) (k : Nat) (hk : (k : Int) < end_ - begin_) :
    ∃ it, itemAt items (begin_ + (k : Int)) = some it ∧
      (rangePairs items begin_ end_)[k]? = some (it, begin_ + (k : Int)) := by
  obtain ⟨it, hit⟩ := itemAt_of_lt items (begin_ + (k : Int)) (by omega) (by omega)
  refine ⟨it, hit, ?_⟩
  rw [rangePairs, indexFrom_getElem, rangeItems_getElem items begin_ end_ h0 k hk, hit]
  rfl

/-- C16: on a Vector with the flag set and a range
`0 <= begin <= end <= Size()`, `Iterate(begin, end, cb)` returns no error (and
does not panic), and the visitor ends in the state of the spec's traversal of
the pairs `(items[i], i)`, `i = begin, ..., end - 1`.  The calls the visitor
receives (recorded by instrumenting it) are a front part of these pairs in
ascending order; every call but the last was answered "continue"; if some
index was not visited, the last call was answered "stop"; a visitor that
always continues receives exactly `end - begin` calls, and with
`begin == end` there is no call. -/
theorem iterate_spec {σ : Type} (v : Vector) (hs : v.sealed = true) (begin_ end_ : Int)
    (h0 : 0 ≤ begin_) (h1 : begin_ ≤ end_) (h2 : end_ ≤ v.Size)
    (cb : σ → Item → Int → Bool × σ) (s : σ) :
    v.Iterate begin_ end_ cb s =
      Outcome.ret (visitAll cb (rangePairs v.items begin_ end_) s, none) ∧
    v.Iterate begin_ end_ (recordCalls cb) (s, []) =
      Outcome.ret ((visitAll cb (rangePairs v.items begin_ end_) s,
        callsOf cb (rangePairs v.items begin_ end_) s), none) ∧
    ((rangePairs v.items begin_ end_).length : Int) = end_ - begin_ ∧
    (∀ k : Nat, (k : Int) < end_ - begin_ →
      ∃ it, itemAt v.items (begin_ + (k : Int)) = some it ∧
        (rangePairs v.items begin_ end_)[k]? = some (it, begin_ + (k : Int))) ∧
    (callsOf cb (rangePairs v.items begin_ end_) s).map (fun c => (c.1, c.2.1)) =
      (rangePairs v.items begin_ end_).take
        (callsOf cb (rangePairs v.items begin_ end_) s).length ∧
    (callsOf cb (rangePairs v.items begin_ end_) s).length ≤
      (rangePairs v.items begin_ end_).length ∧
    (∀ j : Nat, j + 1 < (callsOf cb (rangePairs v.items begin_ end_) s).length →
      ∃ c, (callsOf cb (rangePairs v.items begin_ end_) s)[j]? = some c ∧ c.2.2 = true) ∧
    ((callsOf cb (rangePairs v.items begin_ end_) s).length <
        (rangePairs v.items begin_ end_).length →
      ∃ c, (callsOf cb (rangePairs v.items begin_ end_) s)[
          (callsOf cb (rangePairs v.items begin_ end_) s).length - 1]? = some c ∧
        c.2.2 = false) ∧
    ((∀ s1 it i, (cb s1 it i).1 = true) →
      ((callsOf cb (rangePairs v.items begin_ end_) s).length : Int) = end_ - begin_) ∧
    (begin_ = end_ → callsOf cb (rangePairs v.items begin_ end_) s = []) := by
  rw [Vector.size_of_sealed v hs] at h2
  obtain ⟨c1, c2, c3, c4, c5⟩ := callsOf_spec cb (rangePairs v.items begin_ end_) s
  have hlen := rangePairs_length v.items begin_ end_ h0 h1 h2
  refine ⟨Vector.iterate_of_sealed v hs begin_ end_ h0 h1 h2 cb s, ?_, hlen,
    rangePairs_getElem v.items begin_ end_ h0 h2, c1, c2, c3, c4, ?_, ?_⟩
  · rw [Vector.iterate_of_sealed v hs begin_ end_ h0 h1 h2 (recordCalls cb) (s, []),
      visitAll_recordCalls]
    simp
  · intro hall
    rw [c5 hall]
    exact hlen
  · intro heq
    have hzero : (rangePairs v.items begin_ end_).length = 0 := by omega
    have : (callsOf cb (rangePairs v.items begin_ end_) s).length = 0 := by omega
    exact List.length_eq_zero.mp this

theorem iterate_spec_witness :
    (Vector.run 2 NewVector sampleCalls).Iterate 0 3 (logUntil 1) [] =
      Outcome.ret ([(⟨50, [1, 0]⟩, 0), (⟨50, [2, 0]⟩, 1)], none) ∧
    (Vector.run 2 NewVector sampleCalls).Iterate 0 3 logAll [] =
      Outcome.ret ([(⟨50, [1, 0]⟩, 0), (⟨50, [2, 0]⟩, 1), (⟨100, [1, 0]⟩, 2)], none) ∧
    (Vector.run 2 NewVector sampleCalls).Iterate 2 2 logAll [] = Outcome.ret ([], none) :=
  ⟨(iterate_spec (Vector.run 2 NewVector sampleCalls) (by decide) 0 3 (by decide) (by decide)
      (by decide) (logUntil 1) []).1.trans (by decide),
    (iterate_spec (Vector.run 2 NewVector sampleCalls) (by decide) 0 3 (by decide) (by decide)
      (by decide) logAll []).1.trans (by decide),
    (iterate_spec (Vector.run 2 NewVector sampleCalls) (by decide) 2 2 (by decide) (by decide)
      (by decide) logAll []).1.trans (by decide)⟩

/-! ### The bounds rule -/

/-- The loop of `sort.Search` on a predicate that does not panic below `n`
ends and returns an index. -/
theorem searchLoop_total (f : Nat → Option Bool) (n : Nat)
    (hf : ∀ k, k < n → ∃ b, f k = some b) :
    ∀ (d i j : Nat), j - i ≤ d → j ≤ n → ∃ r, searchLoop f i j = some r := by
  intro d
  induction d with
  | zero =>
    intro i j hd hjn
    refine ⟨i, ?_⟩
    rw [searchLoop, if_neg (by omega)]
  | succ d ih =>
    intro i j hd hjn
    by_cases hlt : i < j
    · obtain ⟨b, hb⟩ := hf ((i + j) / 2) (by omega)
      rw [searchLoop, if_pos hlt, hb]
      cases b with
      | false =>
        obtain ⟨r, hr⟩ := ih ((i + j) / 2 + 1) j (by omega) hjn
        exact ⟨r, by simpa using hr⟩
      | true =>
        obtain ⟨r, hr⟩ := ih i ((i + j) / 2) (by omega) (by omega)
        exact ⟨r, by simpa using hr⟩
    · refine ⟨i, ?_⟩
      rw [searchLoop, if_neg hlt]

theorem Vector.findLowerBound_returns (v : Vector) (hs : v.sealed = true)
    (begin_ end_ : Int) (h0 : 0 ≤ begin_) (h1 : begin_ ≤ end_)
    (h2 : end_ ≤ (v.items.length : Int)) (bound : Bound) :
    ∃ r : Int, v.FindLowerBound begin_ end_ bound = Outcome.ret (r, none) := by
  have hsl : sliceLen v.items begin_ end_ = some (end_ - begin_).toNat := by
    simp only [sliceLen]
    rw [if_neg (by omega)]
  obtain ⟨r, hr⟩ := searchLoop_total
    (fun i => (itemAt v.items (begin_ + (i : Int))).map (fun it => !it.LessThan bound.Item))
    (end_ - begin_).toNat
    (by
      intro k hk
      obtain ⟨it, hit⟩ := itemAt_of_lt v.items (begin_ + (k : Int)) (by omega) (by omega)
      exact ⟨!it.LessThan bound.Item, by simp only [hit, Option.map_some']⟩)
    (end_ - begin_).toNat 0 (end_ - begin_).toNat (by omega) (le_refl _)
  refine ⟨begin_ + (r : Int), ?_⟩
  simp only [Vector.FindLowerBound, Vector.checkSealed, Vector.checkBounds, hs, hsl, Search]
  rw [if_neg (by simp), if_neg (by omega)]
  simp only [hr]

theorem Vector.checkBounds_eq (v : Vector) (begin_ end_ : Int) :
    v.checkBounds begin_ end_ =
      if begin_ > end_ ∨ end_ > (v.items.length : Int) then some Error.badRange else none :=
  rfl

/-- C12: on a Vector with the flag set and for `begin >= 0`, each of
`Iterate`, `FindLowerBound` and `Fingerprint` returns the bad-range error if
and only if `begin > end` or `end > Size()`.  When it does, `Iterate` returns
with the visitor's state untouched (the visitor was never invoked); when it
does not, each of the three returns without error and without panic. -/
theorem bounds_rule {Acc FP σ : Type} (ops : AccumulatorOps Acc FP) (v : Vector)
    (hs : v.sealed = true) (begin_ end_ : Int) (h0 : 0 ≤ begin_)
    (cb : σ → Item → Int → Bool × σ) (s : σ) (bound : Bound) :
    ((v.Iterate begin_ end_ cb s).failsWith Error.badRange ↔
      (begin_ > end_ ∨ end_ > v.Size)) ∧
    ((v.FindLowerBound begin_ end_ bound).failsWith Error.badRange ↔
      (begin_ > end_ ∨ end_ > v.Size)) ∧
    ((v.Fingerprint ops begin_ end_).failsWith Error.badRange ↔
      (begin_ > end_ ∨ end_ > v.Size)) ∧
    ((begin_ > end_ ∨ end_ > v.Size) →
      v.Iterate begin_ end_ cb s = Outcome.ret (s, some Error.badRange) ∧
      v.FindLowerBound begin_ end_ bound = Outcome.ret (0, some Error.badRange) ∧
      v.Fingerprint ops begin_ end_ =
        Outcome.ret (ops.zeroFingerprint, some Error.badRange)) ∧
    (¬ (begin_ > end_ ∨ end_ > v.Size) →
      (∃ s1, v.Iterate begin_ end_ cb s = Outcome.ret (s1, none)) ∧
      (∃ r, v.FindLowerBound begin_ end_ bound = Outcome.ret (r, none)) ∧
      (∃ fp, v.Fingerprint ops begin_ end_ = Outcome.ret (fp, none))) := by
  rw [Vector.size_of_sealed v hs]
  by_cases hbad : begin_ > end_ ∨ end_ > (v.items.length : Int)
  · have hcb : v.checkBounds begin_ end_ = some Error.badRange := by
      rw [Vector.checkBounds_eq, if_pos hbad]
    have hit : v.Iterate begin_ end_ cb s = Outcome.ret (s, some Error.badRange) := by
      simp [Vector.Iterate, Vector.checkSealed, hs, hcb]
    have hfl : v.FindLowerBound begin_ end_ bound = Outcome.ret (0, some Error.badRange) := by
      simp [Vector.FindLowerBound, Vector.checkSealed, hs, hcb]
    have hfp : v.Fingerprint ops begin_ end_ =
        Outcome.ret (ops.zeroFingerprint, some Error.badRange) := by
      simp [Vector.Fingerprint, Vector.Iterate, Vector.checkSealed, hs, hcb]
    exact ⟨⟨fun _ => hbad, fun _ => ⟨s, hit⟩⟩, ⟨fun _ => hbad, fun _ => ⟨0, hfl⟩⟩,
      ⟨fun _ => hbad, fun _ => ⟨ops.zeroFingerprint, hfp⟩⟩, fun _ => ⟨hit, hfl, hfp⟩,
      fun h => absurd hbad h⟩
  · have h1 : begin_ ≤ end_ := by omega
    have h2 : end_ ≤ (v.items.length : Int) := by omega
    have hit := Vector.iterate_of_sealed v hs begin_ end_ h0 h1 h2 cb s
    obtain ⟨r, hfl⟩ := Vector.findLowerBound_returns v hs begin_ end_ h0 h1 h2 bound
    have hfp := Vector.fingerprint_of_sealed ops v hs begin_ end_ h0 h1 h2
    refine ⟨⟨?_, fun h => absurd h hbad⟩, ⟨?_, fun h => absurd h hbad⟩,
      ⟨?_, fun h => absurd h hbad⟩, fun h => absurd h hbad, fun _ => ⟨⟨_, hit⟩, ⟨r, hfl⟩, ⟨_, hfp⟩⟩⟩
    · rintro ⟨a, ha⟩
      rw [hit] at ha
      cases ha
    · rintro ⟨a, ha⟩
      rw [hfl] at ha
      cases ha
    · rintro ⟨a, ha⟩
      rw [hfp] at ha
      cases ha

theorem bounds_rule_witness :
    (Vector.run 2 NewVector sampleCalls).Iterate 3 1 logAll [] =
      Outcome.ret ([], some Error.badRange) ∧
    (Vector.run 2 NewVector sampleCalls).FindLowerBound 3 1 ⟨⟨50, [2, 0]⟩⟩ =
      Outcome.ret (0, some Error.badRange) ∧
    (Vector.run 2 NewVector sampleCalls).Fingerprint sumOps 3 1 =
      Outcome.ret (sumOps.zeroFingerprint, some Error.badRange) :=
  (bounds_rule sumOps (Vector.run 2 NewVector sampleCalls) (by decide) 3 1 (by decide)
    logAll [] ⟨⟨50, [2, 0]⟩⟩).2.2.2.1 (Or.inl (by decide))

end Negentropy
